import Mathlib

/-!
Verification of the JSON parser in `src/` (the most evolved revision, the
file containing `dfa_number`, `parse_value_number`, `json_value_print` …).

Modelling conventions (shallow embedding):

* The C `FILE*` stream is modelled as the list of characters not yet
  consumed.  `getc`/`ungetc`/`fseek`/`ftell` based span extraction (the C
  code scans ahead, seeks back and re-reads) is modelled by its net effect
  on the remaining-character list: `List.take`/`List.drop`.  `EOF` is the
  empty list.  Line counting (`line_num`) only feeds diagnostics, which are
  not modelled.
* `fgets(buf, n+1, f)` reads at most `n` characters but stops after the
  first newline; `fgetsAux` reproduces exactly that.
* Numeric conversion: the C code does `double num = atof(string)` and then
  either stores the double (`val_float`) or converts it to `long long`
  (`val_int`).  The embedding computes the decimal literal exactly in `ℚ`
  (`atofQ`), abstracting the binary rounding of `double`.
* `qsort` with `json_member_cmp` is modelled as a deterministic sort
  (`List.insertionSort`) by the same comparator.
* Mutual recursion of the recursive-descent parser is made total with a
  fuel parameter; every mutual call consumes one unit.  `json_read` supplies
  `4 * input.length + 16` fuel, which is sufficient for any input (each
  cycle of mutual calls consumes input characters).
-/

namespace Json

/-- The `JsonType` enum of `json.h`. -/
inductive JsonType where
  | JTYPE_OBJECT
  | JTYPE_ARRAY
  | JTYPE_STRING
  | JTYPE_INT
  | JTYPE_FLOAT
  | JTYPE_TRUE
  | JTYPE_FALSE
  | JTYPE_NULL
deriving DecidableEq

/-- The parsed tree: C's `JsonValue` (tag plus union), with `JsonObject`
inlined as its member list (key, value) and `JsonArray` as its value list. -/
inductive JsonValue where
  | VObject (members : List (List Char × JsonValue))
  | VArray (values : List JsonValue)
  | VString (s : List Char)
  | VInt (n : Int)
  | VFloat (q : ℚ)
  | VTrue
  | VFalse
  | VNull

instance : Inhabited JsonValue := ⟨JsonValue.VTrue⟩

/-- C `JsonMember`: key and value. -/
abbrev JsonMember : Type := List Char × JsonValue

/-- C `JsonObject`: the null-terminated member array, as a list. -/
abbrev JsonObjectT : Type := List JsonMember

mutual

/-- Structural equality of trees (the notion of "structurally equal" used
throughout; `DecidableEq` cannot be derived for this nested inductive). -/
def beqValue : JsonValue → JsonValue → Bool
  | JsonValue.VObject ms1, JsonValue.VObject ms2 => beqMembers ms1 ms2
  | JsonValue.VArray vs1, JsonValue.VArray vs2 => beqValues vs1 vs2
  | JsonValue.VString s1, JsonValue.VString s2 => s1 = s2
  | JsonValue.VInt n1, JsonValue.VInt n2 => n1 = n2
  | JsonValue.VFloat q1, JsonValue.VFloat q2 => q1 = q2
  | JsonValue.VTrue, JsonValue.VTrue => true
  | JsonValue.VFalse, JsonValue.VFalse => true
  | JsonValue.VNull, JsonValue.VNull => true
  | _, _ => false

/-- Structural equality of member lists. -/
def beqMembers : List JsonMember → List JsonMember → Bool
  | [], [] => true
  | (k1, v1) :: r1, (k2, v2) :: r2 => k1 = k2 && beqValue v1 v2 && beqMembers r1 r2
  | _, _ => false

/-- Structural equality of value lists. -/
def beqValues : List JsonValue → List JsonValue → Bool
  | [], [] => true
  | v1 :: r1, v2 :: r2 => beqValue v1 v2 && beqValues r1 r2
  | _, _ => false

end

/-- C `isspace` (default locale): space, `\t`, `\n`, `\v`, `\f`, `\r`. -/
def isspaceB (c : Char) : Bool :=
  c = ' ' || c = '\t' || c = '\n' || c = '\x0b' || c = '\x0c' || c = '\r'

/-- C `isdigit`. -/
def isdigitB (c : Char) : Bool :=
  '0' ≤ c && c ≤ '9'

/-- `get_next_nonspace`: consume whitespace, return the first non-space
character (consumed) or `none` at end of input. -/
def getNextNonspace : List Char → Option Char × List Char
  | [] => (none, [])
  | c :: cs => if isspaceB c then getNextNonspace cs else (some c, cs)

/-- `peek_next_nonspace`: `get_next_nonspace` followed by `ungetch`
(`ungetc(EOF)` is a no-op, so at end of input nothing is pushed back). -/
def peekNextNonspace (rem : List Char) : Option Char × List Char :=
  match getNextNonspace rem with
  | (some c, rest) => (some c, c :: rest)
  | (none, rest) => (none, rest)

/-- `get_next_char_pos`: consume up to and including the next `ch`;
returns how many characters were consumed (the C code returns `ftell`,
i.e. start position plus this count), or `none` at end of file (C `-2`). -/
def getNextCharPos : List Char → Char → Option Nat
  | [], _ => none
  | c :: cs, ch => if c = ch then some 1 else (getNextCharPos cs ch).map (· + 1)

/-- The characters `fgets` stores when asked for up to `n` characters that
are known to be available: it stops after the first newline. -/
def fgetsAux : List Char → List Char
  | [] => []
  | c :: cs => if c = '\n' then [c] else c :: fgetsAux cs

/-- `get_string_in_range` (and every other `fgets(buf, n+1, file)` call in
the source): read at most `n` characters from the stream, stopping after a
newline; returns the string and the stream after the characters actually
consumed.  (The C `fgets == NULL` branch needs zero readable characters
and is unreachable at the call sites, where the span was already scanned.) -/
def getStringInRange (rem : List Char) (n : Nat) : List Char × List Char :=
  let s := fgetsAux (rem.take n)
  (s, rem.drop s.length)

/-- `get_next_string`: expect optional whitespace then `"`, locate the next
`"`, extract the span between them with `get_string_in_range`, then `getch`
once (intended to step past the closing quote). -/
def getNextString (rem : List Char) : Option (List Char × List Char) :=
  match getNextNonspace rem with
  | (none, _) => none
  | (some c, rem1) =>
    if c = '"' then
      match getNextCharPos rem1 '"' with
      | none => none
      | some cnt =>
        let p := getStringInRange rem1 (cnt - 1)
        some (p.1, p.2.drop 1)
    else none

/-- `accepting_state_int`. -/
def acceptingStateInt (state : Int) : Bool :=
  state = 2 || state = 3

/-- `accepting_state_float`. -/
def acceptingStateFloat (state : Int) : Bool :=
  state = 5 || state = 8

/-- `next_state`: the 9-state number DFA; `-1` rejects. -/
def nextState (state : Int) (c : Char) : Int :=
  if state = 0 then
    if c = '-' then 1
    else if c = '0' then 2
    else if isdigitB c then 3
    else -1
  else if state = 1 then
    if c = '0' then 2
    else if isdigitB c then 3
    else -1
  else if state = 2 then
    if c = '.' then 4
    else if c = 'e' then 6
    else if c = 'E' then 6
    else -1
  else if state = 3 then
    if c = '.' then 4
    else if c = 'e' then 6
    else if c = 'E' then 6
    else if isdigitB c then 3
    else -1
  else if state = 4 then
    if isdigitB c then 5
    else -1
  else if state = 5 then
    if c = 'e' then 6
    else if c = 'E' then 6
    else if isdigitB c then 5
    else -1
  else if state = 6 then
    if c = '+' then 7
    else if c = '-' then 7
    else if isdigitB c then 8
    else -1
  else if state = 7 then
    if isdigitB c then 8
    else -1
  else if state = 8 then
    if isdigitB c then 8
    else -1
  else -1

/-- Loop body of `dfa_number`: `state` is the current DFA state (the C
`prev_state` right before a rejecting character), `consumed` counts the
characters consumed so far.  On a rejecting character the C code pushes it
back and returns `ftell` = start + `consumed` together with the type read
from the accepting class of the state before it; reaching end of file
returns failure (C `-2`). -/
def dfaNumberGo (state : Int) (consumed : Nat) : List Char → Option (Nat × JsonType)
  | [] => none
  | c :: cs =>
    let s2 := nextState state c
    if s2 = -1 then
      if acceptingStateInt state then some (consumed, JsonType.JTYPE_INT)
      else if acceptingStateFloat state then some (consumed, JsonType.JTYPE_FLOAT)
      else none
    else dfaNumberGo s2 (consumed + 1) cs

/-- `dfa_number`. -/
def dfaNumber (rem : List Char) : Option (Nat × JsonType) :=
  dfaNumberGo 0 0 rem

/-- Value of a decimal digit character. -/
def digitVal (c : Char) : Nat := c.toNat - 48

/-- Big-endian value of a digit string. -/
def digitsVal (cs : List Char) : Nat :=
  cs.foldl (fun a c => 10 * a + digitVal c) 0

/-- C `atof`, computed exactly in `ℚ` on the decimal literal
`[-]digits[.digits][(e|E)[+|-]digits]` (the forms `dfa_number` accepts);
abstracts the rounding of the result to `double`. -/
def atofQ (cs : List Char) : ℚ :=
  let p := match cs with
    | '-' :: rest => (true, rest)
    | _ => (false, cs)
  let neg := p.1
  let cs1 := p.2
  let ip := cs1.takeWhile isdigitB
  let r1 := cs1.dropWhile isdigitB
  let q := match r1 with
    | '.' :: rest => (rest.takeWhile isdigitB, rest.dropWhile isdigitB)
    | _ => ([], r1)
  let fp := q.1
  let r2 := q.2
  let e := match r2 with
    | 'e' :: '-' :: rest => (true, rest.takeWhile isdigitB)
    | 'e' :: '+' :: rest => (false, rest.takeWhile isdigitB)
    | 'e' :: rest => (false, rest.takeWhile isdigitB)
    | 'E' :: '-' :: rest => (true, rest.takeWhile isdigitB)
    | 'E' :: '+' :: rest => (false, rest.takeWhile isdigitB)
    | 'E' :: rest => (false, rest.takeWhile isdigitB)
    | _ => (false, [])
  let mantNum : Nat := digitsVal ip * 10 ^ fp.length + digitsVal fp
  let mag : ℚ :=
    if e.1 then mkRat mantNum (10 ^ fp.length * 10 ^ digitsVal e.2)
    else mkRat (mantNum * 10 ^ digitsVal e.2) (10 ^ fp.length)
  if neg then -mag else mag

/-- Truncation toward zero: C's `(long long)` conversion of a double. -/
def ratTrunc (q : ℚ) : Int :=
  Int.tdiv q.num q.den

/-- `parse_value_number`: remember the start, run the DFA, then re-read the
consumed span (`get_string_in_range start end`), convert with `atof`, and
tag by the DFA's accepting class. -/
def parseValueNumber (rem : List Char) : Option (JsonValue × List Char) :=
  match dfaNumber rem with
  | none => none
  | some (n, ty) =>
    let p := getStringInRange rem n
    let num := atofQ p.1
    if ty = JsonType.JTYPE_INT then some (JsonValue.VInt (ratTrunc num), p.2)
    else some (JsonValue.VFloat num, p.2)

/-- `parse_value_string`. -/
def parseValueString (rem : List Char) : Option (JsonValue × List Char) :=
  match getNextString rem with
  | none => none
  | some (s, rem2) => some (JsonValue.VString s, rem2)

/-- `parse_value_true`: `fgets(str, 5, file)` then compare with `"true"`. -/
def parseValueTrue (rem : List Char) : Option (JsonValue × List Char) :=
  let p := getStringInRange rem 4
  if p.1 = ['t', 'r', 'u', 'e'] then some (JsonValue.VTrue, p.2) else none

/-- `parse_value_false`: `fgets(str, 6, file)` then compare with `"false"`.
The C code then sets `value->type = JTYPE_TRUE` (not `JTYPE_FALSE`), which
the embedding reproduces. -/
def parseValueFalse (rem : List Char) : Option (JsonValue × List Char) :=
  let p := getStringInRange rem 5
  if p.1 = ['f', 'a', 'l', 's', 'e'] then some (JsonValue.VTrue, p.2) else none

/-- `parse_value_null`: `fgets(str, 5, file)` then compare with `"null"`.
The C code then sets `value->type = JTYPE_TRUE` (not `JTYPE_NULL`), which
the embedding reproduces. -/
def parseValueNull (rem : List Char) : Option (JsonValue × List Char) :=
  let p := getStringInRange rem 4
  if p.1 = ['n', 'u', 'l', 'l'] then some (JsonValue.VTrue, p.2) else none

/-- `json_member_cmp`: `strcmp` of the keys.  `strcmp` compares byte-wise
and returns the difference at the first mismatch (the sign is what `qsort`
uses); a string that is a proper prefix of the other compares short. -/
def strcmpI : List Char → List Char → Int
  | [], [] => 0
  | [], _ :: _ => -1
  | _ :: _, [] => 1
  | a :: as, b :: bs => if a = b then strcmpI as bs else (a.toNat : Int) - (b.toNat : Int)

/-- `json_member_cmp` as the comparator value. -/
def jsonMemberCmp (m1 m2 : JsonMember) : Int :=
  strcmpI m1.1 m2.1

/-- The ascending order `qsort` establishes with `json_member_cmp`. -/
def memberLe (m1 m2 : JsonMember) : Prop :=
  jsonMemberCmp m1 m2 ≤ 0

instance : DecidableRel memberLe := fun m1 m2 =>
  inferInstanceAs (Decidable (jsonMemberCmp m1 m2 ≤ 0))

mutual

/-- `parse_value`: dispatch on the peeked non-space character. -/
def parseValue : Nat → List Char → Option (JsonValue × List Char)
  | 0, _ => none
  | fuel + 1, rem =>
    let p := peekNextNonspace rem
    match p.1 with
    | none => none
    | some c =>
      if c = '[' then parseValueArray fuel p.2
      else if c = '{' then parseValueObject fuel p.2
      else if c = '-' || isdigitB c then parseValueNumber p.2
      else if c = '"' then parseValueString p.2
      else if c = 't' then parseValueTrue p.2
      else if c = 'f' then parseValueFalse p.2
      else if c = 'n' then parseValueNull p.2
      else none

/-- `parse_value_object`. -/
def parseValueObject : Nat → List Char → Option (JsonValue × List Char)
  | 0, _ => none
  | fuel + 1, rem =>
    match parseObject fuel rem with
    | none => none
    | some (o, rem2) => some (JsonValue.VObject o, rem2)

/-- `parse_value_array`. -/
def parseValueArray : Nat → List Char → Option (JsonValue × List Char)
  | 0, _ => none
  | fuel + 1, rem =>
    match parseArray fuel rem with
    | none => none
    | some (vs, rem2) => some (JsonValue.VArray vs, rem2)

/-- `parse_object`: `{`, then either an immediately closing `}` (empty
object) or `parse_members` followed by `}`. -/
def parseObject : Nat → List Char → Option (JsonObjectT × List Char)
  | 0, _ => none
  | fuel + 1, rem =>
    match getNextNonspace rem with
    | (none, _) => none
    | (some c, rem1) =>
      if c = '{' then
        let p := peekNextNonspace rem1
        if p.1 = some '}' then some ([], p.2.drop 1)
        else
          match parseMembers fuel p.2 with
          | none => none
          | some (ms, rem3) =>
            match getNextNonspace rem3 with
            | (some c2, rem4) => if c2 = '}' then some (ms, rem4) else none
            | (none, _) => none
      else none

/-- `parse_array`: `[`, then either an immediately closing `]` (empty
array) or `parse_values` followed by `]`. -/
def parseArray : Nat → List Char → Option (List JsonValue × List Char)
  | 0, _ => none
  | fuel + 1, rem =>
    match getNextNonspace rem with
    | (none, _) => none
    | (some c, rem1) =>
      if c = '[' then
        let p := peekNextNonspace rem1
        if p.1 = some ']' then some ([], p.2.drop 1)
        else
          match parseValues fuel p.2 with
          | none => none
          | some (vs, rem3) =>
            match getNextNonspace rem3 with
            | (some c2, rem4) => if c2 = ']' then some (vs, rem4) else none
            | (none, _) => none
      else none

/-- `parse_member`: quoted key, `:`, value. -/
def parseMember : Nat → List Char → Option (JsonMember × List Char)
  | 0, _ => none
  | fuel + 1, rem =>
    match getNextString rem with
    | none => none
    | some (key, rem1) =>
      match getNextNonspace rem1 with
      | (some c, rem2) =>
        if c = ':' then
          match parseValue fuel rem2 with
          | none => none
          | some (v, rem3) => some ((key, v), rem3)
        else none
      | (none, _) => none

/-- `parse_members`: first member, then either an immediate `}` (no sort on
this path) or the comma loop followed by `qsort` with `json_member_cmp`. -/
def parseMembers : Nat → List Char → Option (List JsonMember × List Char)
  | 0, _ => none
  | fuel + 1, rem =>
    match parseMember fuel rem with
    | none => none
    | some (m, rem1) =>
      let p := peekNextNonspace rem1
      if p.1 = some '}' then some ([m], p.2)
      else
        match parseMembersLoop fuel p.2 [m] with
        | none => none
        | some (ms, rem3) => some (ms.insertionSort memberLe, rem3)

/-- The do/while body of `parse_members`: `,`, member, repeat until the
peeked character is `}`. -/
def parseMembersLoop : Nat → List Char → List JsonMember → Option (List JsonMember × List Char)
  | 0, _, _ => none
  | fuel + 1, rem, acc =>
    match getNextNonspace rem with
    | (some c, rem1) =>
      if c = ',' then
        match parseMember fuel rem1 with
        | none => none
        | some (m, rem2) =>
          let p := peekNextNonspace rem2
          if p.1 = some '}' then some (acc ++ [m], p.2)
          else parseMembersLoop fuel p.2 (acc ++ [m])
      else none
    | (none, _) => none

/-- `parse_values`: first value, then either an immediate `]` or the comma
loop; array order is the parse order, there is no sort. -/
def parseValues : Nat → List Char → Option (List JsonValue × List Char)
  | 0, _ => none
  | fuel + 1, rem =>
    match parseValue fuel rem with
    | none => none
    | some (v, rem1) =>
      let p := peekNextNonspace rem1
      if p.1 = some ']' then some ([v], p.2)
      else parseValuesLoop fuel p.2 [v]

/-- The do/while body of `parse_values`. -/
def parseValuesLoop : Nat → List Char → List JsonValue → Option (List JsonValue × List Char)
  | 0, _, _ => none
  | fuel + 1, rem, acc =>
    match getNextNonspace rem with
    | (some c, rem1) =>
      if c = ',' then
        match parseValue fuel rem1 with
        | none => none
        | some (v, rem2) =>
          let p := peekNextNonspace rem2
          if p.1 = some ']' then some (acc ++ [v], p.2)
          else parseValuesLoop fuel p.2 (acc ++ [v])
      else none
    | (none, _) => none

end

/-- Fuel `json_read` hands the recursive descent; ample for any input
because every cycle of mutual calls consumes at least one character. -/
def jsonReadFuel (s : List Char) : Nat :=
  4 * s.length + 16

/-- `json_read` (on an already-opened stream): parse the root object, then
require only whitespace to remain ("Excess characters" otherwise); every
failure yields no document. -/
def jsonRead (s : List Char) : Option JsonObjectT :=
  match parseObject (jsonReadFuel s) s with
  | none => none
  | some (o, rem) =>
    match getNextNonspace rem with
    | (some _, _) => none
    | (none, _) => some o

/-- `tab`: two spaces per depth level. -/
def tab (depth : Nat) : List Char :=
  (List.replicate depth [' ', ' ']).flatten

/-- Decimal digit characters of a positive number, most significant first;
`fuel ≥ n` makes the recursion structural. -/
def natCharsGo : Nat → Nat → List Char
  | _, 0 => []
  | 0, _ + 1 => []
  | fuel + 1, n + 1 => natCharsGo fuel ((n + 1) / 10) ++ [Nat.digitChar ((n + 1) % 10)]

/-- Decimal digits of a natural number (`printf` prints `0` for zero). -/
def natChars (n : Nat) : List Char :=
  if n = 0 then ['0'] else natCharsGo n n

/-- `%lld` of `val_int`. -/
def intChars (n : Int) : List Char :=
  if n < 0 then '-' :: natChars n.natAbs else natChars n.natAbs

/-- Fractional digits of `%f`, zero-padded to six places. -/
def pad6 (n : Nat) : List Char :=
  List.replicate (6 - (natChars n).length) '0' ++ natChars n

/-- `%f` of `val_float`: sign, integer part, `.`, six fractional digits,
rounded to nearest with ties to even (abstracting the `double` rounding). -/
def formatF (q : ℚ) : List Char :=
  let n6 : Nat := q.num.natAbs * 1000000
  let den : Nat := q.den
  let fl : Nat := n6 / den
  let r : Nat := n6 % den
  let n : Nat :=
    if den < 2 * r then fl + 1
    else if 2 * r < den then fl
    else if fl % 2 = 0 then fl else fl + 1
  (if q.num < 0 then ['-'] else []) ++ natChars (n / 1000000) ++ '.' :: pad6 (n % 1000000)

mutual

/-- `json_value_print`. -/
def jsonValuePrint : JsonValue → Nat → List Char
  | JsonValue.VTrue, _ => ['t', 'r', 'u', 'e']
  | JsonValue.VFalse, _ => ['f', 'a', 'l', 's', 'e']
  | JsonValue.VNull, _ => ['n', 'u', 'l', 'l']
  | JsonValue.VString s, _ => '"' :: s ++ ['"']
  | JsonValue.VInt n, _ => intChars n
  | JsonValue.VFloat q, _ => formatF q
  | JsonValue.VObject ms, depth => jsonObjectPrint ms depth
  | JsonValue.VArray vs, depth => jsonArrayPrint vs depth

/-- `json_object_print`: `{}` inline when empty, otherwise one member per
line at depth+1 indentation, comma-separated, closing brace at depth. -/
def jsonObjectPrint : List JsonMember → Nat → List Char
  | [], _ => ['{', '}']
  | m :: ms, depth =>
    ['{', '\n'] ++ tab (depth + 1) ++ jsonMemberPrint m depth
      ++ jsonMembersPrint ms depth ++ '\n' :: tab depth ++ ['}']

/-- One member line: `"key": value` (value printed at depth+1). -/
def jsonMemberPrint : JsonMember → Nat → List Char
  | (k, v), depth => '"' :: k ++ ['"', ':', ' '] ++ jsonValuePrint v (depth + 1)

/-- The remaining members, each preceded by `,\n` and indentation. -/
def jsonMembersPrint : List JsonMember → Nat → List Char
  | [], _ => []
  | m :: ms, depth =>
    [',', '\n'] ++ tab (depth + 1) ++ jsonMemberPrint m depth ++ jsonMembersPrint ms depth

/-- `json_array_print`: `[]` inline when empty, otherwise one element per
line at depth+1 indentation, comma-separated, closing bracket at depth. -/
def jsonArrayPrint : List JsonValue → Nat → List Char
  | [], _ => ['[', ']']
  | v :: vs, depth =>
    ['[', '\n'] ++ tab (depth + 1) ++ jsonValuePrint v (depth + 1)
      ++ jsonValuesPrint vs depth ++ '\n' :: tab depth ++ [']']

/-- The remaining elements, each preceded by `,\n` and indentation. -/
def jsonValuesPrint : List JsonValue → Nat → List Char
  | [], _ => []
  | v :: vs, depth =>
    [',', '\n'] ++ tab (depth + 1) ++ jsonValuePrint v (depth + 1) ++ jsonValuesPrint vs depth

end

/-- `json_print_object`: the canonical serialization of a document (depth 0
plus the trailing newline of `puts`). -/
def jsonPrintObject (o : JsonObjectT) : List Char :=
  jsonObjectPrint o 0 ++ ['\n']

/-- `push_data`: the growable null-terminated buffer.  A buffer slot is
`Option α` with `none` for the `NULL` sentinel; `malloc`/`realloc` sized for
`length + 2` elements are modelled by the fresh (indeterminate) slots being
`none` — both fresh slots are overwritten by the two stores that follow, so
the initial value is immaterial.  `list` is `none` when the C pointer is
`NULL`; the result pairs the new buffer with the incremented length. -/
def pushData (list : Option (List (Option α))) (data : α) (length : Nat) :
    List (Option α) × Nat :=
  let buf : List (Option α) :=
    match list with
    | none => [none, none]
    | some l => l ++ [none]
  (((buf.set length (some data)).set (length + 1) none), length + 1)

/-- The `{}`/`[]` branch of `parse_object`/`parse_array`: allocate one slot
and store the `NULL` sentinel in it. -/
def emptyContainerBuf : List (Option α) :=
  [none]

/-- A parse builds a non-empty container by starting from the `NULL`
pointer and pushing each parsed element in order (`push_member` /
`push_value` are `push_data` at different element types). -/
def buildBuf (xs : List α) : Option (List (Option α)) × Nat :=
  xs.foldl (fun p x => (some (pushData p.1 x p.2).1, (pushData p.1 x p.2).2)) (none, 0)

/-- Sentinel-scan length discovery (`while (member = members[i++]) ...`). -/
def sentinelLen : List (Option α) → Nat
  | [] => 0
  | none :: _ => 0
  | some _ :: rest => sentinelLen rest + 1

/-- Sentinel-scan iteration: the elements before the first sentinel. -/
def sentinelElems : List (Option α) → List α
  | [] => []
  | none :: _ => []
  | some x :: rest => x :: sentinelElems rest

/-- Adjacent members in ascending `json_member_cmp` order. -/
def keysSortedB : List JsonMember → Bool
  | [] => true
  | [_] => true
  | m1 :: m2 :: rest => decide (jsonMemberCmp m1 m2 ≤ 0) && keysSortedB (m2 :: rest)

mutual

/-- The sorted-member invariant, recursively through the whole tree:
every object's member sequence is ascending under `json_member_cmp`. -/
def objSorted : JsonValue → Bool
  | JsonValue.VObject ms => keysSortedB ms && objSortedMembers ms
  | JsonValue.VArray vs => objSortedValues vs
  | _ => true

/-- `objSorted` on each member's value. -/
def objSortedMembers : List JsonMember → Bool
  | [] => true
  | m :: ms => objSorted m.2 && objSortedMembers ms

/-- `objSorted` on each element. -/
def objSortedValues : List JsonValue → Bool
  | [] => true
  | v :: vs => objSorted v && objSortedValues vs

end

/-- What the string scanner can produce: no quote at all, and a newline at
most as the final character (`fgets` truncation). -/
def strOkB (s : List Char) : Bool :=
  !s.contains '"' && !s.dropLast.contains '\n'

mutual

/-- Shape invariant of every value a successful parse produces: strings
and keys come from `get_next_string` (`strOkB`), the `False`/`Null` tags
never occur (`parse_value_false`/`parse_value_null` emit the `True` tag),
and object member lists are sorted. -/
def parseInvB : JsonValue → Bool
  | JsonValue.VObject ms => keysSortedB ms && parseInvMembers ms
  | JsonValue.VArray vs => parseInvValues vs
  | JsonValue.VString s => strOkB s
  | JsonValue.VInt _ => true
  | JsonValue.VFloat _ => true
  | JsonValue.VTrue => true
  | JsonValue.VFalse => false
  | JsonValue.VNull => false

/-- `parseInvB` on members (key and value). -/
def parseInvMembers : List JsonMember → Bool
  | [] => true
  | m :: ms => strOkB m.1 && parseInvB m.2 && parseInvMembers ms

/-- `parseInvB` on elements. -/
def parseInvValues : List JsonValue → Bool
  | [] => true
  | v :: vs => parseInvB v && parseInvValues vs

end

mutual

/-- No `Float`-tagged leaf anywhere in the tree. -/
def noFloatB : JsonValue → Bool
  | JsonValue.VObject ms => noFloatMembers ms
  | JsonValue.VArray vs => noFloatValues vs
  | JsonValue.VFloat _ => false
  | _ => true

/-- `noFloatB` on members. -/
def noFloatMembers : List JsonMember → Bool
  | [] => true
  | m :: ms => noFloatB m.2 && noFloatMembers ms

/-- `noFloatB` on elements. -/
def noFloatValues : List JsonValue → Bool
  | [] => true
  | v :: vs => noFloatB v && noFloatValues vs

end

/-- States on the integer-only path of the grammar. -/
def isIntSide (s : Int) : Bool :=
  s = 0 || s = 1 || s = 2 || s = 3

/-- States reachable only after a `.` or an exponent marker. -/
def isFloatSide (s : Int) : Bool :=
  s = 4 || s = 5 || s = 6 || s = 7 || s = 8

/-- A character that introduces the float path. -/
def isDotExp (c : Char) : Bool :=
  c = '.' || c = 'e' || c = 'E'

/-- Length of the maximal prefix on which the DFA stays alive. -/
def dfaAliveLen (state : Int) : List Char → Nat
  | [] => 0
  | c :: cs =>
    let s2 := nextState state c
    if s2 = -1 then 0 else dfaAliveLen s2 cs + 1

/-- The state after consuming the maximal alive prefix. -/
def dfaStateAt (state : Int) : List Char → Int
  | [] => state
  | c :: cs =>
    let s2 := nextState state c
    if s2 = -1 then state else dfaStateAt s2 cs

/-- Every state the recognizer passes through while scanning, from the
start state up to the state at the first rejecting character or at end of
stream. -/
def dfaStatesGo (state : Int) : List Char → List Int
  | [] => [state]
  | c :: cs =>
    let s2 := nextState state c
    if s2 = -1 then [state] else state :: dfaStatesGo s2 cs

/-- The states of the run of `dfa_number`. -/
def dfaStates (rem : List Char) : List Int :=
  dfaStatesGo 0 rem

/-- Modelled from the spec: the Query Layer's `json_get_value` (declared in
`json.h` with "returns NULL if key does not exist in object" and exercised
by `test.c`, but implemented in no `src/` file).  The spec prescribes
"binary search over the sorted member sequence".  `lo`/`hi` delimit the
half-open search window; the fuel argument only makes the halving
recursion structural and is in excess of `hi - lo`. -/
def jsonGetValueGo (members : List JsonMember) (key : List Char) :
    Nat → Nat → Nat → Option JsonValue
  | 0, _, _ => none
  | fuel + 1, lo, hi =>
    if lo < hi then
      let mid := (lo + hi) / 2
      match members[mid]? with
      | none => none
      | some m =>
        if strcmpI key m.1 < 0 then jsonGetValueGo members key fuel lo mid
        else if 0 < strcmpI key m.1 then jsonGetValueGo members key fuel (mid + 1) hi
        else some m.2
    else none

/-- Modelled from the spec: `json_get_value object key` binary-searches the
whole sorted member sequence. -/
def json_get_value (o : JsonObjectT) (key : List Char) : Option JsonValue :=
  jsonGetValueGo o key (o.length + 1) 0 o.length

/-- Strong induction over the nested tree: the member and element lists
are traversed by membership. -/
theorem JsonValue.recAux {motive : JsonValue → Prop}
    (hobj : ∀ ms, (∀ m ∈ ms, motive (Prod.snd m)) → motive (JsonValue.VObject ms))
    (harr : ∀ vs, (∀ v ∈ vs, motive v) → motive (JsonValue.VArray vs))
    (hstr : ∀ s, motive (JsonValue.VString s))
    (hint : ∀ n, motive (JsonValue.VInt n))
    (hfl : ∀ q, motive (JsonValue.VFloat q))
    (ht : motive JsonValue.VTrue)
    (hf : motive JsonValue.VFalse)
    (hn : motive JsonValue.VNull) :
    ∀ v, motive v := by
  have H : ∀ n v, sizeOf v < n → motive v := by
    intro n
    induction n with
    | zero =>
      intro v h
      omega
    | succ n ih =>
      intro v h
      cases v with
      | VObject ms =>
        apply hobj
        intro m hm
        have h1 := List.sizeOf_lt_of_mem hm
        have h2 : sizeOf (Prod.snd m) < sizeOf m := by
          cases m with
          | mk a b =>
            simp only [Prod.mk.sizeOf_spec]
            omega
        have h3 := JsonValue.VObject.sizeOf_spec ms
        exact ih _ (by omega)
      | VArray vs =>
        apply harr
        intro v hv
        have h1 := List.sizeOf_lt_of_mem hv
        have h3 := JsonValue.VArray.sizeOf_spec vs
        exact ih _ (by omega)
      | VString s => exact hstr s
      | VInt m => exact hint m
      | VFloat q => exact hfl q
      | VTrue => exact ht
      | VFalse => exact hf
      | VNull => exact hn
  intro v
  exact H (sizeOf v + 1) v (by omega)

theorem getNextNonspace_eq (rem : List Char) :
    getNextNonspace rem =
      ((rem.dropWhile isspaceB).head?, (rem.dropWhile isspaceB).tail) := by
  induction rem with
  | nil => rfl
  | cons c cs ih =>
    by_cases h : isspaceB c
    · simp [getNextNonspace, h, List.dropWhile, ih]
    · simp [getNextNonspace, h, List.dropWhile]

theorem peekNextNonspace_eq (rem : List Char) :
    peekNextNonspace rem =
      ((rem.dropWhile isspaceB).head?, rem.dropWhile isspaceB) := by
  rw [peekNextNonspace, getNextNonspace_eq]
  cases h : rem.dropWhile isspaceB with
  | nil => rfl
  | cons c cs => rfl

theorem dropWhile_ws_append {ws : List Char} (l : List Char)
    (h : ∀ c ∈ ws, isspaceB c = true) :
    (ws ++ l).dropWhile isspaceB = l.dropWhile isspaceB := by
  induction ws with
  | nil => rfl
  | cons c cs ih =>
    have hc : isspaceB c = true := h c (by simp)
    simp only [List.cons_append, List.dropWhile, hc]
    exact ih fun c hc2 => h c (by simp [hc2])

theorem dropWhile_cons_nonspace {c : Char} (l : List Char) (h : isspaceB c = false) :
    (c :: l).dropWhile isspaceB = c :: l := by
  simp [List.dropWhile, h]

theorem getNextCharPos_of_notMem {span : List Char} {ch : Char} (rest : List Char)
    (h : ch ∉ span) :
    getNextCharPos (span ++ ch :: rest) ch = some (span.length + 1) := by
  induction span with
  | nil => simp [getNextCharPos]
  | cons c span2 ih =>
    have hc : c ≠ ch := by
      intro heq
      exact h (by simp [heq])
    rw [List.cons_append,
      show getNextCharPos (c :: (span2 ++ ch :: rest)) ch =
        if c = ch then some 1 else (getNextCharPos (span2 ++ ch :: rest) ch).map (· + 1)
        from rfl,
      if_neg hc, ih (fun hm => h (by simp [hm]))]
    rfl

theorem getNextCharPos_eq_none {l : List Char} {ch : Char} (h : ch ∉ l) :
    getNextCharPos l ch = none := by
  induction l with
  | nil => rfl
  | cons c cs ih =>
    have hc : c ≠ ch := by
      intro he
      exact h (by simp [he])
    simp only [getNextCharPos, if_neg hc, ih (fun hm => h (by simp [hm]))]
    rfl

theorem fgetsAux_eq_self {l : List Char} (h : '\n' ∉ l.dropLast) :
    fgetsAux l = l := by
  induction l with
  | nil => rfl
  | cons c cs ih =>
    cases cs with
    | nil =>
      by_cases hc : c = '\n' <;> simp [fgetsAux, hc]
    | cons d ds =>
      have hc : c ≠ '\n' := by
        intro he
        apply h
        simp [he, List.dropLast]
      have h2 : '\n' ∉ (d :: ds).dropLast := by
        intro hm
        apply h
        simp [List.dropLast_cons_of_ne_nil, hm]
      rw [show fgetsAux (c :: d :: ds) =
            if c = '\n' then [c] else c :: fgetsAux (d :: ds) from rfl,
        if_neg hc, ih h2]

theorem fgetsAux_dropLast_no_newline (l : List Char) :
    '\n' ∉ (fgetsAux l).dropLast := by
  induction l with
  | nil => simp [fgetsAux]
  | cons c cs ih =>
    by_cases hc : c = '\n'
    · simp [fgetsAux, hc]
    · simp only [fgetsAux, if_neg hc]
      cases h : fgetsAux cs with
      | nil => simp
      | cons d ds =>
        rw [List.dropLast_cons_of_ne_nil (by simp)]
        intro hm
        rcases List.mem_cons.mp hm with h1 | h1
        · exact hc h1.symm
        · rw [h] at ih
          exact ih h1

theorem fgetsAux_sublist (l : List Char) : ∀ c ∈ fgetsAux l, c ∈ l := by
  induction l with
  | nil => simp [fgetsAux]
  | cons c cs ih =>
    by_cases hc : c = '\n'
    · simp [fgetsAux, hc]
    · simp only [fgetsAux, if_neg hc]
      intro x hx
      rcases List.mem_cons.mp hx with h1 | h1
      · simp [h1]
      · exact List.mem_cons.mpr (Or.inr (ih x h1))

theorem getNextString_spec {ws span rest : List Char}
    (hws : ∀ c ∈ ws, isspaceB c = true) (hq : '"' ∉ span)
    (hn : '\n' ∉ span.dropLast) :
    getNextString (ws ++ '"' :: span ++ '"' :: rest) = some (span, rest) := by
  have hnsq : isspaceB '"' = false := by decide
  rw [getNextString, getNextNonspace_eq]
  rw [show ws ++ '"' :: span ++ '"' :: rest = ws ++ ('"' :: (span ++ '"' :: rest)) by simp]
  rw [dropWhile_ws_append _ hws, dropWhile_cons_nonspace _ hnsq]
  simp only [List.head?_cons, List.tail_cons, if_pos rfl]
  rw [getNextCharPos_of_notMem rest hq]
  simp only [getStringInRange, Nat.add_sub_cancel]
  rw [List.take_left, fgetsAux_eq_self hn]
  rw [List.drop_left]
  simp

theorem getNextCharPos_take_notMem {ch : Char} :
    ∀ (l : List Char) (cnt : Nat), getNextCharPos l ch = some cnt → ch ∉ l.take (cnt - 1) := by
  intro l
  induction l with
  | nil =>
    intro cnt hh
    exact Option.noConfusion hh
  | cons a as ih =>
    intro cnt hh
    by_cases ha : a = ch
    · simp only [getNextCharPos, if_pos ha] at hh
      have hc1 : cnt = 1 := by
        injection hh with hh2
        omega
      subst hc1
      simp
    · simp only [getNextCharPos, if_neg ha] at hh
      cases hr : getNextCharPos as ch with
      | none =>
        rw [hr] at hh
        exact Option.noConfusion hh
      | some k =>
        rw [hr] at hh
        have hh2 : k + 1 = cnt := Option.some.inj hh
        subst hh2
        simp only [Nat.add_sub_cancel]
        cases k with
        | zero => simp
        | succ k2 =>
          rw [List.take_cons (by omega : 0 < k2 + 1)]
          intro hm2
          rcases List.mem_cons.mp hm2 with h3 | h3
          · exact ha h3.symm
          · have h4 := ih _ hr
            simp only [Nat.add_sub_cancel] at h4 h3
            exact h4 h3

theorem dfaNumberGo_eq_resolve (cs : List Char) : ∀ (state : Int) (k : Nat),
    dfaNumberGo state k cs =
      if dfaAliveLen state cs < cs.length then
        if acceptingStateInt (dfaStateAt state cs) then
          some (k + dfaAliveLen state cs, JsonType.JTYPE_INT)
        else if acceptingStateFloat (dfaStateAt state cs) then
          some (k + dfaAliveLen state cs, JsonType.JTYPE_FLOAT)
        else none
      else none := by
  induction cs with
  | nil =>
    intro state k
    simp [dfaNumberGo, dfaAliveLen]
  | cons c cs ih =>
    intro state k
    by_cases h : nextState state c = -1
    · simp [dfaNumberGo, dfaAliveLen, dfaStateAt, h]
    · rw [show dfaNumberGo state k (c :: cs) =
            (if nextState state c = -1 then
              (if acceptingStateInt state then some (k, JsonType.JTYPE_INT)
               else if acceptingStateFloat state then some (k, JsonType.JTYPE_FLOAT)
               else none)
             else dfaNumberGo (nextState state c) (k + 1) cs) from rfl,
        if_neg h, ih]
      rw [show dfaAliveLen state (c :: cs) =
            (if nextState state c = -1 then 0 else dfaAliveLen (nextState state c) cs + 1)
            from rfl,
        if_neg h]
      rw [show dfaStateAt state (c :: cs) =
            (if nextState state c = -1 then state else dfaStateAt (nextState state c) cs)
            from rfl,
        if_neg h]
      by_cases h2 : dfaAliveLen (nextState state c) cs < cs.length
      · rw [if_pos h2,
          if_pos (show dfaAliveLen (nextState state c) cs + 1 < (c :: cs).length by
            simp only [List.length_cons]
            omega)]
        have harith : k + 1 + dfaAliveLen (nextState state c) cs =
            k + (dfaAliveLen (nextState state c) cs + 1) := by omega
        rw [harith]
      · rw [if_neg h2,
          if_neg (show ¬(dfaAliveLen (nextState state c) cs + 1 < (c :: cs).length) by
            simp only [List.length_cons]
            omega)]

theorem dfaNumberGo_le {cs : List Char} : ∀ {state : Int} {k n : Nat} {ty : JsonType},
    dfaNumberGo state k cs = some (n, ty) → k ≤ n := by
  induction cs with
  | nil =>
    intro state k n ty h
    exact Option.noConfusion h
  | cons c cs ih =>
    intro state k n ty h
    rw [show dfaNumberGo state k (c :: cs) =
          (if nextState state c = -1 then
            (if acceptingStateInt state then some (k, JsonType.JTYPE_INT)
             else if acceptingStateFloat state then some (k, JsonType.JTYPE_FLOAT)
             else none)
           else dfaNumberGo (nextState state c) (k + 1) cs) from rfl] at h
    split_ifs at h with h1 h2 h3
    · injection h with h4
      injection h4 with h5 h6
      omega
    · injection h with h4
      injection h4 with h5 h6
      omega
    · have := ih h
      omega

theorem nextState_eq_0 (c : Char) : nextState 0 c =
    if c = '-' then 1 else if c = '0' then 2 else if isdigitB c then 3 else -1 := rfl

theorem nextState_eq_1 (c : Char) : nextState 1 c =
    if c = '0' then 2 else if isdigitB c then 3 else -1 := rfl

theorem nextState_eq_2 (c : Char) : nextState 2 c =
    if c = '.' then 4 else if c = 'e' then 6 else if c = 'E' then 6 else -1 := rfl

theorem nextState_eq_3 (c : Char) : nextState 3 c =
    if c = '.' then 4 else if c = 'e' then 6 else if c = 'E' then 6
    else if isdigitB c then 3 else -1 := rfl

theorem nextState_eq_4 (c : Char) : nextState 4 c =
    if isdigitB c then 5 else -1 := rfl

theorem nextState_eq_5 (c : Char) : nextState 5 c =
    if c = 'e' then 6 else if c = 'E' then 6 else if isdigitB c then 5 else -1 := rfl

theorem nextState_eq_6 (c : Char) : nextState 6 c =
    if c = '+' then 7 else if c = '-' then 7 else if isdigitB c then 8 else -1 := rfl

theorem nextState_eq_7 (c : Char) : nextState 7 c =
    if isdigitB c then 8 else -1 := rfl

theorem nextState_eq_8 (c : Char) : nextState 8 c =
    if isdigitB c then 8 else -1 := rfl

theorem floatSide_closed {s : Int} {c : Char} (hs : isFloatSide s = true)
    (ha : nextState s c ≠ -1) : isFloatSide (nextState s c) = true := by
  simp only [isFloatSide, Bool.or_eq_true, decide_eq_true_eq] at hs
  rcases hs with ((((h | h) | h) | h) | h) <;> subst h
  · rw [nextState_eq_4] at ha ⊢
    split_ifs at ha ⊢ <;> simp_all [isFloatSide]
  · rw [nextState_eq_5] at ha ⊢
    split_ifs at ha ⊢ <;> simp_all [isFloatSide]
  · rw [nextState_eq_6] at ha ⊢
    split_ifs at ha ⊢ <;> simp_all [isFloatSide]
  · rw [nextState_eq_7] at ha ⊢
    split_ifs at ha ⊢ <;> simp_all [isFloatSide]
  · rw [nextState_eq_8] at ha ⊢
    split_ifs at ha ⊢ <;> simp_all [isFloatSide]

theorem intSide_step_good {s : Int} {c : Char} (hs : isIntSide s = true)
    (ha : nextState s c ≠ -1) (hc : isDotExp c = false) :
    isIntSide (nextState s c) = true := by
  simp only [isIntSide, Bool.or_eq_true, decide_eq_true_eq] at hs
  have hc1 : c ≠ '.' := by
    intro h
    rw [h] at hc
    exact absurd hc (by decide)
  have hc2 : c ≠ 'e' := by
    intro h
    rw [h] at hc
    exact absurd hc (by decide)
  have hc3 : c ≠ 'E' := by
    intro h
    rw [h] at hc
    exact absurd hc (by decide)
  rcases hs with (((h | h) | h) | h) <;> subst h
  · rw [nextState_eq_0] at ha ⊢
    split_ifs at ha ⊢ <;>
      first
        | decide
        | exact absurd rfl ha
        | exact absurd (by assumption) hc1
        | exact absurd (by assumption) hc2
        | exact absurd (by assumption) hc3
  · rw [nextState_eq_1] at ha ⊢
    split_ifs at ha ⊢ <;>
      first
        | decide
        | exact absurd rfl ha
        | exact absurd (by assumption) hc1
        | exact absurd (by assumption) hc2
        | exact absurd (by assumption) hc3
  · rw [nextState_eq_2] at ha ⊢
    split_ifs at ha ⊢ <;>
      first
        | decide
        | exact absurd rfl ha
        | exact absurd (by assumption) hc1
        | exact absurd (by assumption) hc2
        | exact absurd (by assumption) hc3
  · rw [nextState_eq_3] at ha ⊢
    split_ifs at ha ⊢ <;>
      first
        | decide
        | exact absurd rfl ha
        | exact absurd (by assumption) hc1
        | exact absurd (by assumption) hc2
        | exact absurd (by assumption) hc3

theorem intSide_step_bad {s : Int} {c : Char} (hs : isIntSide s = true)
    (ha : nextState s c ≠ -1) (hc : isDotExp c = true) :
    isFloatSide (nextState s c) = true := by
  simp only [isIntSide, Bool.or_eq_true, decide_eq_true_eq] at hs
  simp only [isDotExp, Bool.or_eq_true, decide_eq_true_eq] at hc
  rcases hs with (((h | h) | h) | h) <;> subst h <;>
    rcases hc with ((h2 | h2) | h2) <;> subst h2 <;>
      first
        | decide
        | exact absurd (by decide) ha

theorem floatSide_go_float {cs : List Char} : ∀ {state : Int} {k n : Nat} {ty : JsonType},
    isFloatSide state = true → dfaNumberGo state k cs = some (n, ty) →
    ty = JsonType.JTYPE_FLOAT := by
  induction cs with
  | nil =>
    intro state k n ty _ h
    exact Option.noConfusion h
  | cons c cs ih =>
    intro state k n ty hs h
    rw [show dfaNumberGo state k (c :: cs) =
          (if nextState state c = -1 then
            (if acceptingStateInt state then some (k, JsonType.JTYPE_INT)
             else if acceptingStateFloat state then some (k, JsonType.JTYPE_FLOAT)
             else none)
           else dfaNumberGo (nextState state c) (k + 1) cs) from rfl] at h
    split_ifs at h with h1 h2 h3
    · exfalso
      simp only [isFloatSide, Bool.or_eq_true, decide_eq_true_eq] at hs
      simp only [acceptingStateInt, Bool.or_eq_true, decide_eq_true_eq] at h2
      rcases hs with h | h | h | h | h <;> omega
    · injection h with h4
      injection h4 with h5 h6
      exact h6.symm
    · exact ih (floatSide_closed hs h1) h

theorem intSide_go_tag {cs : List Char} : ∀ {state : Int} {k n : Nat} {ty : JsonType},
    isIntSide state = true → dfaNumberGo state k cs = some (n, ty) →
    (ty = JsonType.JTYPE_INT ↔ ∀ c ∈ cs.take (n - k), isDotExp c = false) := by
  induction cs with
  | nil =>
    intro state k n ty _ h
    exact Option.noConfusion h
  | cons c cs ih =>
    intro state k n ty hs h
    rw [show dfaNumberGo state k (c :: cs) =
          (if nextState state c = -1 then
            (if acceptingStateInt state then some (k, JsonType.JTYPE_INT)
             else if acceptingStateFloat state then some (k, JsonType.JTYPE_FLOAT)
             else none)
           else dfaNumberGo (nextState state c) (k + 1) cs) from rfl] at h
    split_ifs at h with h1 h2 h3
    · injection h with h4
      injection h4 with h5 h6
      subst h5
      subst h6
      simp
    · exfalso
      simp only [isIntSide, Bool.or_eq_true, decide_eq_true_eq] at hs
      simp only [acceptingStateFloat, Bool.or_eq_true, decide_eq_true_eq] at h3
      rcases hs with h | h | h | h <;> omega
    · have hk := dfaNumberGo_le h
      by_cases hc : isDotExp c = true
      · have hfl := floatSide_go_float (intSide_step_bad hs h1 hc) h
        subst hfl
        constructor
        · intro h5
          exact absurd h5 (by simp)
        · intro h5
          exfalso
          have h6 : c ∈ (c :: cs).take (n - k) := by
            have h7 : n - k = (n - (k + 1)) + 1 := by omega
            rw [h7, List.take_cons]
            · simp
            · omega
          exact absurd hc (by simp [h5 c h6])
      · have hgood : isDotExp c = false := by simpa using hc
        have hiff := ih (intSide_step_good hs h1 hgood) h
        rw [hiff]
        have h7 : n - k = (n - (k + 1)) + 1 := by omega
        rw [h7, List.take_cons (by omega)]
        constructor
        · intro h8 d hd
          rcases List.mem_cons.mp hd with h9 | h9
          · rw [h9]
            exact hgood
          · exact h8 d h9
        · intro h8 d hd
          exact h8 d (List.mem_cons.mpr (Or.inr hd))

theorem getNextString_strOk {rem s rem2 : List Char}
    (h : getNextString rem = some (s, rem2)) : strOkB s = true := by
  rw [getNextString] at h
  split at h
  next => exact absurd h (by simp)
  next c rem1 heq =>
    split at h
    · split at h
      next => exact absurd h (by simp)
      next cnt hp =>
        simp only [getStringInRange, Option.some.injEq, Prod.mk.injEq] at h
        have hs : s = fgetsAux (rem1.take (cnt - 1)) := h.1.symm
        have h1 : '"' ∉ s := by
          subst hs
          intro hm
          exact getNextCharPos_take_notMem rem1 cnt hp (fgetsAux_sublist _ _ hm)
        have h2 : '\n' ∉ s.dropLast := by
          subst hs
          exact fgetsAux_dropLast_no_newline _
        simp only [strOkB, Bool.and_eq_true, Bool.not_eq_true']
        constructor
        · exact (Bool.not_eq_true _).mp (by simpa using h1)
        · exact (Bool.not_eq_true _).mp (by simpa using h2)
    · exact absurd h (by simp)

theorem charToNat_inj {a b : Char} (h : a.toNat = b.toNat) : a = b := by
  apply Char.ext
  apply UInt32.ext
  exact h

theorem strcmpI_self : ∀ a : List Char, strcmpI a a = 0
  | [] => rfl
  | c :: cs => by simp [strcmpI, strcmpI_self cs]

theorem strcmpI_eq_zero_iff : ∀ {a b : List Char}, strcmpI a b = 0 ↔ a = b := by
  intro a
  induction a with
  | nil =>
    intro b
    cases b <;> simp [strcmpI]
  | cons x xs ih =>
    intro b
    cases b with
    | nil => simp [strcmpI]
    | cons y ys =>
      by_cases hxy : x = y
      · subst hxy
        simp [strcmpI, ih]
      · simp only [strcmpI, if_neg hxy]
        constructor
        · intro h
          exfalso
          exact hxy (charToNat_inj (by omega))
        · intro h
          injection h with h1 h2
          exact absurd h1 hxy

theorem strcmpI_flip : ∀ a b : List Char, strcmpI a b < 0 ↔ 0 < strcmpI b a := by
  intro a
  induction a with
  | nil =>
    intro b
    cases b <;> simp [strcmpI]
  | cons x xs ih =>
    intro b
    cases b with
    | nil => simp [strcmpI]
    | cons y ys =>
      by_cases hxy : x = y
      · subst hxy
        simp only [strcmpI, if_pos rfl]
        exact ih ys
      · have hyx : y ≠ x := Ne.symm hxy
        have hne : x.toNat ≠ y.toNat := fun h => hxy (charToNat_inj h)
        simp only [strcmpI, if_neg hxy, if_neg hyx]
        omega

theorem strcmpI_trans_master : ∀ a b c : List Char,
    strcmpI a b ≤ 0 → strcmpI b c ≤ 0 →
    strcmpI a c ≤ 0 ∧ ((strcmpI a b < 0 ∨ strcmpI b c < 0) → strcmpI a c < 0) := by
  intro a
  induction a with
  | nil =>
    intro b c h1 h2
    cases b with
    | nil =>
      cases c with
      | nil =>
        refine ⟨?_, fun hx => ?_⟩
        · rw [show strcmpI ([] : List Char) [] = 0 from rfl]
        · rcases hx with hx | hx <;>
            rw [show strcmpI ([] : List Char) [] = 0 from rfl] at hx <;> omega
      | cons z zs =>
        refine ⟨?_, fun _ => ?_⟩ <;>
          rw [show strcmpI ([] : List Char) (z :: zs) = -1 from rfl] <;> omega
    | cons y ys =>
      cases c with
      | nil =>
        exfalso
        rw [show strcmpI (y :: ys) [] = 1 from rfl] at h2
        omega
      | cons z zs =>
        refine ⟨?_, fun _ => ?_⟩ <;>
          rw [show strcmpI ([] : List Char) (z :: zs) = -1 from rfl] <;> omega
  | cons x xs ih =>
    intro b c h1 h2
    cases b with
    | nil =>
      exfalso
      simp [strcmpI] at h1
    | cons y ys =>
      cases c with
      | nil =>
        exfalso
        simp [strcmpI] at h2
      | cons z zs =>
        by_cases hxy : x = y
        · subst hxy
          by_cases hxz : x = z
          · subst hxz
            simp only [strcmpI, if_pos rfl] at h1 h2 ⊢
            exact ih ys zs h1 h2
          · simp only [strcmpI, if_pos rfl] at h1
            simp only [strcmpI, if_neg hxz] at h2 ⊢
            exact ⟨h2, fun _ => by
              have hne : x.toNat ≠ z.toNat := fun h => hxz (charToNat_inj h)
              omega⟩
        · by_cases hyz : y = z
          · subst hyz
            simp only [strcmpI, if_neg hxy] at h1 ⊢
            have hne : x.toNat ≠ y.toNat := fun h => hxy (charToNat_inj h)
            exact ⟨h1, fun _ => by omega⟩
          · simp only [strcmpI, if_neg hxy] at h1
            simp only [strcmpI, if_neg hyz] at h2
            have hne1 : x.toNat ≠ y.toNat := fun h => hxy (charToNat_inj h)
            have hne2 : y.toNat ≠ z.toNat := fun h => hyz (charToNat_inj h)
            have hxz : x ≠ z := by
              intro h
              subst h
              omega
            simp only [strcmpI, if_neg hxz]
            constructor
            · omega
            · intro _
              omega

theorem strcmpI_le_trans {a b c : List Char}
    (h1 : strcmpI a b ≤ 0) (h2 : strcmpI b c ≤ 0) : strcmpI a c ≤ 0 :=
  (strcmpI_trans_master a b c h1 h2).1

theorem strcmpI_lt_of_lt_of_le {a b c : List Char}
    (h1 : strcmpI a b < 0) (h2 : strcmpI b c ≤ 0) : strcmpI a c < 0 :=
  (strcmpI_trans_master a b c (le_of_lt h1) h2).2 (Or.inl h1)

theorem strcmpI_lt_of_le_of_lt {a b c : List Char}
    (h1 : strcmpI a b ≤ 0) (h2 : strcmpI b c < 0) : strcmpI a c < 0 :=
  (strcmpI_trans_master a b c h1 (le_of_lt h2)).2 (Or.inr h2)

theorem strcmpI_total (a b : List Char) : strcmpI a b ≤ 0 ∨ strcmpI b a ≤ 0 := by
  by_cases h : strcmpI a b ≤ 0
  · exact Or.inl h
  · right
    have h2 : 0 < strcmpI a b := by omega
    have h3 : strcmpI b a < 0 := (strcmpI_flip b a).mpr h2
    omega

instance : IsTrans JsonMember memberLe :=
  ⟨fun _ _ _ h1 h2 => strcmpI_le_trans h1 h2⟩

instance : IsTotal JsonMember memberLe :=
  ⟨fun a b => strcmpI_total a.1 b.1⟩

theorem keysSortedB_iff_chain' : ∀ ms : List JsonMember,
    keysSortedB ms = true ↔ List.Chain' memberLe ms := by
  intro ms
  induction ms with
  | nil => simp [keysSortedB]
  | cons m1 rest ih =>
    cases rest with
    | nil => simp [keysSortedB]
    | cons m2 rest2 =>
      rw [show keysSortedB (m1 :: m2 :: rest2) =
            (decide (jsonMemberCmp m1 m2 ≤ 0) && keysSortedB (m2 :: rest2)) from rfl]
      rw [List.chain'_cons, Bool.and_eq_true, decide_eq_true_eq, ih]
      exact Iff.rfl

theorem keysSortedB_iff_pairwise (ms : List JsonMember) :
    keysSortedB ms = true ↔ List.Pairwise memberLe ms := by
  rw [keysSortedB_iff_chain']
  exact List.chain'_iff_pairwise

theorem jsonGetValueGo_sound {o : JsonObjectT} {key : List Char} :
    ∀ (fuel lo hi : Nat) (v : JsonValue),
      jsonGetValueGo o key fuel lo hi = some v →
      ∃ m, m ∈ o ∧ m.1 = key ∧ m.2 = v := by
  intro fuel
  induction fuel with
  | zero =>
    intro lo hi v h
    exact Option.noConfusion h
  | succ fuel ih =>
    intro lo hi v h
    rw [show jsonGetValueGo o key (fuel + 1) lo hi =
          (if lo < hi then
            match o[(lo + hi) / 2]? with
            | none => none
            | some m =>
              if strcmpI key m.1 < 0 then jsonGetValueGo o key fuel lo ((lo + hi) / 2)
              else if 0 < strcmpI key m.1 then
                jsonGetValueGo o key fuel ((lo + hi) / 2 + 1) hi
              else some m.2
          else none) from rfl] at h
    split_ifs at h with hlh
    · cases hm : o[(lo + hi) / 2]? with
      | none =>
        rw [hm] at h
        exact Option.noConfusion h
      | some m =>
        rw [hm] at h
        simp only at h
        split_ifs at h with hc1 hc2
        · exact ih _ _ _ h
        · exact ih _ _ _ h
        · have hkey : key = m.1 := strcmpI_eq_zero_iff.mp (by omega)
          have hmem : m ∈ o := by
            have := List.getElem?_eq_some_iff.mp hm
            rcases this with ⟨hlt, hget⟩
            rw [← hget]
            exact List.getElem_mem hlt
          injection h with hv
          exact ⟨m, hmem, hkey.symm, hv⟩

theorem jsonGetValueGo_complete {o : JsonObjectT} {key : List Char}
    (hsorted : List.Pairwise memberLe o) :
    ∀ (fuel lo hi : Nat), hi ≤ o.length → hi - lo ≤ fuel →
      (∃ j, lo ≤ j ∧ j < hi ∧ ∃ hj : j < o.length, (o[j]).1 = key) →
      (jsonGetValueGo o key fuel lo hi).isSome = true := by
  have hpw := List.pairwise_iff_getElem.mp hsorted
  intro fuel
  induction fuel with
  | zero =>
    intro lo hi hhi hfuel hex
    rcases hex with ⟨j, hj1, hj2, _⟩
    omega
  | succ fuel ih =>
    intro lo hi hhi hfuel hex
    rcases hex with ⟨j, hj1, hj2, hjlen, hjkey⟩
    have hlh : lo < hi := by omega
    have hmidlt : (lo + hi) / 2 < o.length := by omega
    rw [show jsonGetValueGo o key (fuel + 1) lo hi =
          (if lo < hi then
            match o[(lo + hi) / 2]? with
            | none => none
            | some m =>
              if strcmpI key m.1 < 0 then jsonGetValueGo o key fuel lo ((lo + hi) / 2)
              else if 0 < strcmpI key m.1 then
                jsonGetValueGo o key fuel ((lo + hi) / 2 + 1) hi
              else some m.2
          else none) from rfl,
      if_pos hlh, List.getElem?_eq_getElem hmidlt]
    simp only
    split_ifs with hc1 hc2
    · apply ih lo ((lo + hi) / 2) (by omega) (by omega)
      refine ⟨j, hj1, ?_, hjlen, hjkey⟩
      by_contra hjge
      have hjge2 : (lo + hi) / 2 ≤ j := by omega
      rcases Nat.eq_or_lt_of_le hjge2 with heq | hlt
      · subst heq
        rw [hjkey] at hc1
        rw [strcmpI_self] at hc1
        omega
      · have hle := hpw ((lo + hi) / 2) j hmidlt hjlen hlt
        have hle2 : strcmpI (o[(lo + hi) / 2]).1 key ≤ 0 := by
          rw [← hjkey]
          exact hle
        have := strcmpI_lt_of_lt_of_le hc1 hle2
        rw [strcmpI_self] at this
        omega
    · apply ih ((lo + hi) / 2 + 1) hi hhi (by omega)
      refine ⟨j, ?_, hj2, hjlen, hjkey⟩
      by_contra hjlt
      have hjle : j ≤ (lo + hi) / 2 := by omega
      rcases Nat.eq_or_lt_of_le hjle with heq | hlt
      · subst heq
        rw [hjkey] at hc2
        rw [strcmpI_self] at hc2
        omega
      · have hle := hpw j ((lo + hi) / 2) hjlen hmidlt hlt
        have hle2 : strcmpI key (o[(lo + hi) / 2]).1 ≤ 0 := by
          rw [← hjkey]
          exact hle
        omega
    · simp

theorem parseInvMembers_iff_forall : ∀ ms : List JsonMember,
    parseInvMembers ms = true ↔ ∀ m ∈ ms, strOkB m.1 = true ∧ parseInvB m.2 = true := by
  intro ms
  induction ms with
  | nil => simp [parseInvMembers]
  | cons m rest ih =>
    rw [show parseInvMembers (m :: rest) =
          (strOkB m.1 && parseInvB m.2 && parseInvMembers rest) from rfl]
    simp [ih, Bool.and_eq_true, and_assoc]

theorem parseInvValues_iff_forall : ∀ vs : List JsonValue,
    parseInvValues vs = true ↔ ∀ v ∈ vs, parseInvB v = true := by
  intro vs
  induction vs with
  | nil => simp [parseInvValues]
  | cons v rest ih =>
    rw [show parseInvValues (v :: rest) = (parseInvB v && parseInvValues rest) from rfl]
    simp [ih, Bool.and_eq_true]

theorem parseValueNumber_inv {rem : List Char} {v : JsonValue} {rem2 : List Char}
    (h : parseValueNumber rem = some (v, rem2)) : parseInvB v = true := by
  rw [parseValueNumber] at h
  split at h
  · exact Option.noConfusion h
  · split_ifs at h
    · injection h with h2
      injection h2 with h3 h4
      rw [← h3]
      rfl
    · injection h with h2
      injection h2 with h3 h4
      rw [← h3]
      rfl

theorem parseValueString_inv {rem : List Char} {v : JsonValue} {rem2 : List Char}
    (h : parseValueString rem = some (v, rem2)) : parseInvB v = true := by
  rw [parseValueString] at h
  split at h
  · exact Option.noConfusion h
  next s2 rem3 heq =>
    injection h with h2
    injection h2 with h3 h4
    rw [← h3]
    exact getNextString_strOk heq

theorem parseValueTrue_shape {rem : List Char} {v : JsonValue} {rem2 : List Char}
    (h : parseValueTrue rem = some (v, rem2)) : v = JsonValue.VTrue := by
  rw [parseValueTrue] at h
  split_ifs at h
  injection h with h2
  injection h2 with h3 h4
  exact h3.symm

theorem parseValueFalse_shape {rem : List Char} {v : JsonValue} {rem2 : List Char}
    (h : parseValueFalse rem = some (v, rem2)) : v = JsonValue.VTrue := by
  rw [parseValueFalse] at h
  split_ifs at h
  injection h with h2
  injection h2 with h3 h4
  exact h3.symm

theorem parseValueNull_shape {rem : List Char} {v : JsonValue} {rem2 : List Char}
    (h : parseValueNull rem = some (v, rem2)) : v = JsonValue.VTrue := by
  rw [parseValueNull] at h
  split_ifs at h
  injection h with h2
  injection h2 with h3 h4
  exact h3.symm

theorem parseInv_all : ∀ fuel : Nat,
    (∀ rem v rem2, parseValue fuel rem = some (v, rem2) → parseInvB v = true) ∧
    (∀ rem v rem2, parseValueObject fuel rem = some (v, rem2) → parseInvB v = true) ∧
    (∀ rem v rem2, parseValueArray fuel rem = some (v, rem2) → parseInvB v = true) ∧
    (∀ rem o rem2, parseObject fuel rem = some (o, rem2) →
      keysSortedB o = true ∧ parseInvMembers o = true) ∧
    (∀ rem vs rem2, parseArray fuel rem = some (vs, rem2) → parseInvValues vs = true) ∧
    (∀ rem m rem2, parseMember fuel rem = some (m, rem2) →
      strOkB m.1 = true ∧ parseInvB m.2 = true) ∧
    (∀ rem ms rem2, parseMembers fuel rem = some (ms, rem2) →
      keysSortedB ms = true ∧ parseInvMembers ms = true) ∧
    (∀ rem acc ms rem2, parseMembersLoop fuel rem acc = some (ms, rem2) →
      parseInvMembers acc = true → parseInvMembers ms = true) ∧
    (∀ rem vs rem2, parseValues fuel rem = some (vs, rem2) → parseInvValues vs = true) ∧
    (∀ rem acc vs rem2, parseValuesLoop fuel rem acc = some (vs, rem2) →
      parseInvValues acc = true → parseInvValues vs = true) := by
  intro fuel
  induction fuel with
  | zero =>
    refine ⟨?_, ?_, ?_, ?_, ?_, ?_, ?_, ?_, ?_, ?_⟩ <;>
      intro rem a b <;> first
        | (intro h; exact Option.noConfusion h)
        | (intro c h; exact Option.noConfusion h)
  | succ fuel ih =>
    obtain ⟨ihV, ihVO, ihVA, ihO, ihA, ihM, ihMs, ihML, ihVs, ihVL⟩ := ih
    refine ⟨?_, ?_, ?_, ?_, ?_, ?_, ?_, ?_, ?_, ?_⟩
    · -- parseValue
      intro rem v rem2 h
      rw [show parseValue (fuel + 1) rem =
            (let p := peekNextNonspace rem
             match p.1 with
             | none => none
             | some c =>
               if c = '[' then parseValueArray fuel p.2
               else if c = '{' then parseValueObject fuel p.2
               else if c = '-' || isdigitB c then parseValueNumber p.2
               else if c = '"' then parseValueString p.2
               else if c = 't' then parseValueTrue p.2
               else if c = 'f' then parseValueFalse p.2
               else if c = 'n' then parseValueNull p.2
               else none) from rfl] at h
      simp only at h
      split at h
      · exact Option.noConfusion h
      next c heq =>
        split_ifs at h
        · exact ihVA _ _ _ h
        · exact ihVO _ _ _ h
        · exact parseValueNumber_inv h
        · exact parseValueString_inv h
        · rw [parseValueTrue_shape h]
          rfl
        · rw [parseValueFalse_shape h]
          rfl
        · rw [parseValueNull_shape h]
          rfl
    · -- parseValueObject
      intro rem v rem2 h
      rw [show parseValueObject (fuel + 1) rem =
            (match parseObject fuel rem with
             | none => none
             | some (o, r2) => some (JsonValue.VObject o, r2)) from rfl] at h
      split at h
      · exact Option.noConfusion h
      next o r2 heq =>
        injection h with h2
        injection h2 with h3 h4
        rw [← h3]
        have := ihO _ _ _ heq
        rw [show parseInvB (JsonValue.VObject o) =
              (keysSortedB o && parseInvMembers o) from rfl]
        simp [this.1, this.2]
    · -- parseValueArray
      intro rem v rem2 h
      rw [show parseValueArray (fuel + 1) rem =
            (match parseArray fuel rem with
             | none => none
             | some (vs, r2) => some (JsonValue.VArray vs, r2)) from rfl] at h
      split at h
      · exact Option.noConfusion h
      next vs r2 heq =>
        injection h with h2
        injection h2 with h3 h4
        rw [← h3]
        have := ihA _ _ _ heq
        rw [show parseInvB (JsonValue.VArray vs) = parseInvValues vs from rfl]
        exact this
    · -- parseObject
      intro rem o rem2 h
      rw [show parseObject (fuel + 1) rem =
            (match getNextNonspace rem with
             | (none, _) => none
             | (some c, rem1) =>
               if c = '{' then
                 let p := peekNextNonspace rem1
                 if p.1 = some '}' then some ([], p.2.drop 1)
                 else
                   match parseMembers fuel p.2 with
                   | none => none
                   | some (ms, rem3) =>
                     match getNextNonspace rem3 with
                     | (some c2, rem4) => if c2 = '}' then some (ms, rem4) else none
                     | (none, _) => none
               else none) from rfl] at h
      simp only at h
      split at h
      · exact Option.noConfusion h
      next c rem1 heq =>
        split_ifs at h with hbr hempty
        · injection h with h2
          injection h2 with h3 h4
          rw [← h3]
          exact ⟨rfl, rfl⟩
        · split at h
          · exact Option.noConfusion h
          next ms rem3 heq2 =>
            split at h
            next c2 rem4 heq3 =>
              split_ifs at h
              injection h with h2
              injection h2 with h3 h4
              rw [← h3]
              exact ihMs _ _ _ heq2
            next heq3 => exact Option.noConfusion h
    · -- parseArray
      intro rem vs rem2 h
      rw [show parseArray (fuel + 1) rem =
            (match getNextNonspace rem with
             | (none, _) => none
             | (some c, rem1) =>
               if c = '[' then
                 let p := peekNextNonspace rem1
                 if p.1 = some ']' then some ([], p.2.drop 1)
                 else
                   match parseValues fuel p.2 with
                   | none => none
                   | some (vs0, rem3) =>
                     match getNextNonspace rem3 with
                     | (some c2, rem4) => if c2 = ']' then some (vs0, rem4) else none
                     | (none, _) => none
               else none) from rfl] at h
      simp only at h
      split at h
      · exact Option.noConfusion h
      next c rem1 heq =>
        split_ifs at h with hbr hempty
        · injection h with h2
          injection h2 with h3 h4
          rw [← h3]
          rfl
        · split at h
          · exact Option.noConfusion h
          next vs0 rem3 heq2 =>
            split at h
            next c2 rem4 heq3 =>
              split_ifs at h
              injection h with h2
              injection h2 with h3 h4
              rw [← h3]
              exact ihVs _ _ _ heq2
            next heq3 => exact Option.noConfusion h
    · -- parseMember
      intro rem m rem2 h
      rw [show parseMember (fuel + 1) rem =
            (match getNextString rem with
             | none => none
             | some (key, rem1) =>
               match getNextNonspace rem1 with
               | (some c, rem3) =>
                 if c = ':' then
                   match parseValue fuel rem3 with
                   | none => none
                   | some (v, rem4) => some ((key, v), rem4)
                 else none
               | (none, _) => none) from rfl] at h
      split at h
      · exact Option.noConfusion h
      next key rem1 heq =>
        split at h
        next c rem3 heq2 =>
          split_ifs at h
          split at h
          · exact Option.noConfusion h
          next v rem4 heq3 =>
            injection h with h2
            injection h2 with h3 h4
            rw [← h3]
            exact ⟨getNextString_strOk heq, ihV _ _ _ heq3⟩
        next heq2 => exact Option.noConfusion h
    · -- parseMembers
      intro rem ms rem2 h
      rw [show parseMembers (fuel + 1) rem =
            (match parseMember fuel rem with
             | none => none
             | some (m, rem1) =>
               let p := peekNextNonspace rem1
               if p.1 = some '}' then some ([m], p.2)
               else
                 match parseMembersLoop fuel p.2 [m] with
                 | none => none
                 | some (ms0, rem3) => some (ms0.insertionSort memberLe, rem3)) from rfl] at h
      split at h
      · exact Option.noConfusion h
      next m rem1 heq =>
        simp only at h
        have hm := ihM _ _ _ heq
        split_ifs at h with hend
        · injection h with h2
          injection h2 with h3 h4
          rw [← h3]
          constructor
          · rfl
          · rw [show parseInvMembers [m] =
                  (strOkB m.1 && parseInvB m.2 && parseInvMembers []) from rfl]
            simp [hm.1, hm.2, parseInvMembers]
        · split at h
          · exact Option.noConfusion h
          next ms0 rem3 heq2 =>
            injection h with h2
            injection h2 with h3 h4
            rw [← h3]
            have hacc : parseInvMembers [m] = true := by
              rw [show parseInvMembers [m] =
                    (strOkB m.1 && parseInvB m.2 && parseInvMembers []) from rfl]
              simp [hm.1, hm.2, parseInvMembers]
            have hms0 := ihML _ _ _ _ heq2 hacc
            constructor
            · rw [keysSortedB_iff_pairwise]
              exact List.sorted_insertionSort memberLe ms0
            · rw [parseInvMembers_iff_forall]
              intro x hx
              have hperm := List.perm_insertionSort memberLe ms0
              have hx2 : x ∈ ms0 := hperm.mem_iff.mp hx
              exact (parseInvMembers_iff_forall ms0).mp hms0 x hx2
    · -- parseMembersLoop
      intro rem acc ms rem2 h hacc
      rw [show parseMembersLoop (fuel + 1) rem acc =
            (match getNextNonspace rem with
             | (some c, rem1) =>
               if c = ',' then
                 match parseMember fuel rem1 with
                 | none => none
                 | some (m, rem3) =>
                   let p := peekNextNonspace rem3
                   if p.1 = some '}' then some (acc ++ [m], p.2)
                   else parseMembersLoop fuel p.2 (acc ++ [m])
               else none
             | (none, _) => none) from rfl] at h
      split at h
      next c rem1 heq =>
        split_ifs at h
        split at h
        · exact Option.noConfusion h
        next m rem3 heq2 =>
          simp only at h
          have hm := ihM _ _ _ heq2
          have happ : parseInvMembers (acc ++ [m]) = true := by
            rw [parseInvMembers_iff_forall]
            intro x hx
            rcases List.mem_append.mp hx with hx2 | hx2
            · exact (parseInvMembers_iff_forall acc).mp hacc x hx2
            · rcases List.mem_singleton.mp hx2 with rfl
              exact hm
          split_ifs at h with hend
          · injection h with h2
            injection h2 with h3 h4
            rw [← h3]
            exact happ
          · exact ihML _ _ _ _ h happ
      next heq => exact Option.noConfusion h
    · -- parseValues
      intro rem vs rem2 h
      rw [show parseValues (fuel + 1) rem =
            (match parseValue fuel rem with
             | none => none
             | some (v, rem1) =>
               let p := peekNextNonspace rem1
               if p.1 = some ']' then some ([v], p.2)
               else parseValuesLoop fuel p.2 [v]) from rfl] at h
      split at h
      · exact Option.noConfusion h
      next v rem1 heq =>
        simp only at h
        have hv := ihV _ _ _ heq
        have hone : parseInvValues [v] = true := by
          rw [show parseInvValues [v] = (parseInvB v && parseInvValues []) from rfl]
          simp [hv, parseInvValues]
        split_ifs at h with hend
        · injection h with h2
          injection h2 with h3 h4
          rw [← h3]
          exact hone
        · exact ihVL _ _ _ _ h hone
    · -- parseValuesLoop
      intro rem acc vs rem2 h hacc
      rw [show parseValuesLoop (fuel + 1) rem acc =
            (match getNextNonspace rem with
             | (some c, rem1) =>
               if c = ',' then
                 match parseValue fuel rem1 with
                 | none => none
                 | some (v, rem3) =>
                   let p := peekNextNonspace rem3
                   if p.1 = some ']' then some (acc ++ [v], p.2)
                   else parseValuesLoop fuel p.2 (acc ++ [v])
               else none
             | (none, _) => none) from rfl] at h
      split at h
      next c rem1 heq =>
        split_ifs at h
        split at h
        · exact Option.noConfusion h
        next v rem3 heq2 =>
          simp only at h
          have hv := ihV _ _ _ heq2
          have happ : parseInvValues (acc ++ [v]) = true := by
            rw [parseInvValues_iff_forall]
            intro x hx
            rcases List.mem_append.mp hx with hx2 | hx2
            · exact (parseInvValues_iff_forall acc).mp hacc x hx2
            · rcases List.mem_singleton.mp hx2 with rfl
              exact hv
          split_ifs at h with hend
          · injection h with h2
            injection h2 with h3 h4
            rw [← h3]
            exact happ
          · exact ihVL _ _ _ _ h happ
      next heq => exact Option.noConfusion h

theorem pushData_step {α : Type} (ys : List α) (x : α) :
    pushData (some (ys.map some ++ [none])) x ys.length =
      ((ys ++ [x]).map some ++ [none], ys.length + 1) := by
  rw [show pushData (some (ys.map some ++ [none])) x ys.length =
        ((((ys.map some ++ [none]) ++ [none]).set ys.length (some x)).set
          (ys.length + 1) none, ys.length + 1) from rfl]
  have hbuf : ys.map some ++ [none] ++ [(none : Option α)] =
      ys.map some ++ [none, none] := by simp
  rw [hbuf]
  have hmain : ∀ ys2 : List α,
      ((ys2.map some ++ [none, none]).set ys2.length (some x)).set
        (ys2.length + 1) none = (ys2 ++ [x]).map some ++ [none] := by
    intro ys2
    induction ys2 with
    | nil => rfl
    | cons y rest ih =>
      simp only [List.map_cons, List.cons_append, List.length_cons, List.set_cons_succ]
      rw [ih]
  rw [hmain]

theorem buildBuf_go {α : Type} : ∀ (xs ys : List α),
    xs.foldl (fun p x => (some (pushData p.1 x p.2).1, (pushData p.1 x p.2).2))
      (some (ys.map some ++ [none]), ys.length) =
      (some ((ys ++ xs).map some ++ [none]), (ys ++ xs).length) := by
  intro xs
  induction xs with
  | nil => simp
  | cons x rest ih =>
    intro ys
    rw [List.foldl_cons, pushData_step]
    simp only
    have hl : ys.length + 1 = (ys ++ [x]).length := by simp
    rw [hl, ih (ys ++ [x])]
    simp

theorem buildBuf_spec {α : Type} (x : α) (rest : List α) :
    buildBuf (x :: rest) =
      (some ((x :: rest).map some ++ [none]), (x :: rest).length) := by
  have h := buildBuf_go rest [x]
  simp only [List.singleton_append, List.length_cons] at h
  exact h

theorem sentinelLen_spec {α : Type} : ∀ xs : List α,
    sentinelLen (xs.map some ++ [none]) = xs.length := by
  intro xs
  induction xs with
  | nil => rfl
  | cons x rest ih =>
    rw [show (x :: rest).map some ++ [(none : Option α)] =
          some x :: (rest.map some ++ [none]) by simp]
    rw [show sentinelLen (some x :: (rest.map some ++ [(none : Option α)])) =
          sentinelLen (rest.map some ++ [none]) + 1 from rfl]
    rw [ih]
    rfl

theorem sentinelElems_spec {α : Type} : ∀ xs : List α,
    sentinelElems (xs.map some ++ [none]) = xs := by
  intro xs
  induction xs with
  | nil => rfl
  | cons x rest ih =>
    rw [show (x :: rest).map some ++ [(none : Option α)] =
          some x :: (rest.map some ++ [none]) by simp]
    rw [show sentinelElems (some x :: (rest.map some ++ [(none : Option α)])) =
          x :: sentinelElems (rest.map some ++ [none]) from rfl]
    rw [ih]

theorem noInteriorNone {α : Type} (xs : List α) :
    ∀ y ∈ (xs.map some ++ [none]).dropLast, y ≠ none := by
  rw [List.dropLast_concat]
  intro y hy
  rcases List.mem_map.mp hy with ⟨x, _, hx⟩
  rw [← hx]
  exact Option.noConfusion

theorem objSortedMembers_iff_forall : ∀ ms : List JsonMember,
    objSortedMembers ms = true ↔ ∀ m ∈ ms, objSorted (Prod.snd m) = true := by
  intro ms
  induction ms with
  | nil => simp [objSortedMembers]
  | cons m rest ih =>
    rw [show objSortedMembers (m :: rest) =
          (objSorted m.2 && objSortedMembers rest) from rfl]
    simp [ih, Bool.and_eq_true]

theorem objSortedValues_iff_forall : ∀ vs : List JsonValue,
    objSortedValues vs = true ↔ ∀ v ∈ vs, objSorted v = true := by
  intro vs
  induction vs with
  | nil => simp [objSortedValues]
  | cons v rest ih =>
    rw [show objSortedValues (v :: rest) = (objSorted v && objSortedValues rest) from rfl]
    simp [ih, Bool.and_eq_true]

theorem parseInvB_objSorted : ∀ v : JsonValue, parseInvB v = true → objSorted v = true := by
  intro v
  induction v using JsonValue.recAux with
  | hobj ms ih =>
    intro h
    rw [show parseInvB (JsonValue.VObject ms) =
          (keysSortedB ms && parseInvMembers ms) from rfl] at h
    simp only [Bool.and_eq_true] at h
    rw [show objSorted (JsonValue.VObject ms) =
          (keysSortedB ms && objSortedMembers ms) from rfl]
    simp only [Bool.and_eq_true]
    refine ⟨h.1, ?_⟩
    rw [objSortedMembers_iff_forall]
    intro m hm
    exact ih m hm ((parseInvMembers_iff_forall ms).mp h.2 m hm).2
  | harr vs ih =>
    intro h
    rw [show parseInvB (JsonValue.VArray vs) = parseInvValues vs from rfl] at h
    rw [show objSorted (JsonValue.VArray vs) = objSortedValues vs from rfl]
    rw [objSortedValues_iff_forall]
    intro v2 hv
    exact ih v2 hv ((parseInvValues_iff_forall vs).mp h v2 hv)
  | hstr s2 => intro _; rfl
  | hint n => intro _; rfl
  | hfl q => intro _; rfl
  | ht => intro _; rfl
  | hf => intro h; exact absurd h (by decide)
  | hn => intro h; exact absurd h (by decide)

theorem dfaNumber_types {cs : List Char} : ∀ {state : Int} {k n : Nat} {ty : JsonType},
    dfaNumberGo state k cs = some (n, ty) →
    ty = JsonType.JTYPE_INT ∨ ty = JsonType.JTYPE_FLOAT := by
  induction cs with
  | nil =>
    intro state k n ty h
    exact Option.noConfusion h
  | cons c cs ih =>
    intro state k n ty h
    rw [show dfaNumberGo state k (c :: cs) =
          (if nextState state c = -1 then
            (if acceptingStateInt state then some (k, JsonType.JTYPE_INT)
             else if acceptingStateFloat state then some (k, JsonType.JTYPE_FLOAT)
             else none)
           else dfaNumberGo (nextState state c) (k + 1) cs) from rfl] at h
    split_ifs at h with h1 h2 h3
    · injection h with h4
      injection h4 with h5 h6
      exact Or.inl h6.symm
    · injection h with h4
      injection h4 with h5 h6
      exact Or.inr h6.symm
    · exact ih h

theorem dfaNumber_tag {rem : List Char} {n : Nat} {ty : JsonType}
    (h : dfaNumber rem = some (n, ty)) :
    (ty = JsonType.JTYPE_INT ↔ ∀ c ∈ rem.take n, isDotExp c = false) := by
  have h2 := intSide_go_tag (by decide) h
  simpa using h2

theorem dfaNumber_eq_resolve (rem : List Char) :
    dfaNumber rem =
      if dfaAliveLen 0 rem < rem.length then
        if acceptingStateInt (dfaStateAt 0 rem) then
          some (dfaAliveLen 0 rem, JsonType.JTYPE_INT)
        else if acceptingStateFloat (dfaStateAt 0 rem) then
          some (dfaAliveLen 0 rem, JsonType.JTYPE_FLOAT)
        else none
      else none := by
  have h := dfaNumberGo_eq_resolve rem 0 0
  simpa using h

theorem parseObject_head {fuel : Nat} {rem : List Char} {o : JsonObjectT}
    {rem2 : List Char} (h : parseObject fuel rem = some (o, rem2)) :
    (rem.dropWhile isspaceB).head? = some '{' := by
  cases fuel with
  | zero => exact Option.noConfusion h
  | succ fuel =>
    rw [show parseObject (fuel + 1) rem =
          (match getNextNonspace rem with
           | (none, _) => none
           | (some c, rem1) =>
             if c = '{' then
               let p := peekNextNonspace rem1
               if p.1 = some '}' then some ([], p.2.drop 1)
               else
                 match parseMembers fuel p.2 with
                 | none => none
                 | some (ms, rem3) =>
                   match getNextNonspace rem3 with
                   | (some c2, rem4) => if c2 = '}' then some (ms, rem4) else none
                   | (none, _) => none
             else none) from rfl] at h
    split at h
    · exact Option.noConfusion h
    next c rem1 heq =>
      by_cases hc : c = '{'
      · rw [getNextNonspace_eq] at heq
        injection heq with he1 he2
        subst hc
        exact he1
      · rw [if_neg hc] at h
        exact Option.noConfusion h

theorem getNextNonspace_ws {ws : List Char} {c : Char} (l : List Char)
    (hws : ∀ x ∈ ws, isspaceB x = true) (hc : isspaceB c = false) :
    getNextNonspace (ws ++ c :: l) = (some c, l) := by
  rw [getNextNonspace_eq, dropWhile_ws_append _ hws, dropWhile_cons_nonspace _ hc]
  rfl

theorem peekNextNonspace_ws {ws : List Char} {c : Char} (l : List Char)
    (hws : ∀ x ∈ ws, isspaceB x = true) (hc : isspaceB c = false) :
    peekNextNonspace (ws ++ c :: l) = (some c, c :: l) := by
  rw [peekNextNonspace_eq, dropWhile_ws_append _ hws, dropWhile_cons_nonspace _ hc]
  rfl

theorem tab_ws (d : Nat) : ∀ x ∈ tab d, isspaceB x = true := by
  intro x hx
  rw [tab] at hx
  rcases List.mem_flatten.mp hx with ⟨l, hl, hxl⟩
  rcases List.eq_of_mem_replicate hl with rfl
  rcases List.mem_cons.mp hxl with h | h
  · rw [h]
    rfl
  · rcases List.mem_singleton.mp h with rfl
    rfl

theorem takeWhile_all {p : Char → Bool} : ∀ {l : List Char},
    (∀ c ∈ l, p c = true) → l.takeWhile p = l := by
  intro l
  induction l with
  | nil => intro _; rfl
  | cons c cs ih =>
    intro h
    rw [List.takeWhile_cons, if_pos (h c (by simp))]
    rw [ih fun x hx => h x (by simp [hx])]

theorem dropWhile_all {p : Char → Bool} : ∀ {l : List Char},
    (∀ c ∈ l, p c = true) → l.dropWhile p = [] := by
  intro l
  induction l with
  | nil => intro _; rfl
  | cons c cs ih =>
    intro h
    rw [List.dropWhile_cons, if_pos (h c (by simp))]
    exact ih fun x hx => h x (by simp [hx])

theorem digitsVal_append (l1 l2 : List Char) :
    digitsVal (l1 ++ l2) = digitsVal l1 * 10 ^ l2.length + digitsVal l2 := by
  have hfrom : ∀ (l : List Char) (a : Nat),
      l.foldl (fun acc c => 10 * acc + digitVal c) a =
        a * 10 ^ l.length + digitsVal l := by
    intro l
    induction l with
    | nil =>
      intro a
      simp [digitsVal]
    | cons c cs ih =>
      intro a
      rw [List.foldl_cons, ih]
      rw [show digitsVal (c :: cs) =
            cs.foldl (fun acc c => 10 * acc + digitVal c) (10 * 0 + digitVal c)
            from rfl]
      rw [ih]
      simp [List.length_cons]
      ring
  rw [digitsVal, List.foldl_append]
  rw [show List.foldl (fun acc c => 10 * acc + digitVal c) 0 l1 = digitsVal l1 from rfl]
  exact hfrom l2 (digitsVal l1)

theorem digitVal_digitChar {d : Nat} (h : d < 10) :
    digitVal (Nat.digitChar d) = d := by
  interval_cases d <;> rfl

theorem isdigitB_digitChar {d : Nat} (h : d < 10) :
    isdigitB (Nat.digitChar d) = true := by
  interval_cases d <;> rfl

theorem digitChar_ne_zero {d : Nat} (h1 : 1 ≤ d) (h2 : d < 10) :
    Nat.digitChar d ≠ '0' := by
  interval_cases d <;> decide

theorem natCharsGo_spec : ∀ fuel n : Nat, 1 ≤ n → n ≤ fuel →
    natCharsGo fuel n ≠ [] ∧
    (∀ c ∈ natCharsGo fuel n, isdigitB c = true) ∧
    digitsVal (natCharsGo fuel n) = n ∧
    (∀ c, (natCharsGo fuel n).head? = some c → c ≠ '0') := by
  intro fuel
  induction fuel with
  | zero =>
    intro n h1 h2
    omega
  | succ fuel ih =>
    intro n h1 h2
    rcases n with _ | n2
    · omega
    · rw [show natCharsGo (fuel + 1) (n2 + 1) =
            natCharsGo fuel ((n2 + 1) / 10) ++ [Nat.digitChar ((n2 + 1) % 10)]
            from rfl]
      have hmod : (n2 + 1) % 10 < 10 := Nat.mod_lt _ (by omega)
      by_cases hq : (n2 + 1) / 10 = 0
      · have hlt : n2 + 1 < 10 := by omega
        have hmodeq : (n2 + 1) % 10 = n2 + 1 := Nat.mod_eq_of_lt hlt
        rw [hq]
        rw [show natCharsGo fuel 0 = [] from by cases fuel <;> rfl]
        refine ⟨by simp, ?_, ?_, ?_⟩
        · intro c hc
          rcases List.mem_singleton.mp (by simpa using hc) with rfl
          exact isdigitB_digitChar hmod
        · rw [List.nil_append]
          rw [show digitsVal [Nat.digitChar ((n2 + 1) % 10)] =
                digitVal (Nat.digitChar ((n2 + 1) % 10)) from by
              rw [digitsVal]
              simp [List.foldl]]
          rw [digitVal_digitChar hmod, hmodeq]
        · intro c hc
          simp only [List.nil_append, List.head?_cons, Option.some.injEq] at hc
          rw [← hc, hmodeq]
          exact digitChar_ne_zero (by omega) hlt
      · have hdiv1 : 1 ≤ (n2 + 1) / 10 := by omega
        have hdiv2 : (n2 + 1) / 10 ≤ fuel := by
          have := Nat.div_lt_self (show 0 < n2 + 1 by omega) (show 1 < 10 by omega)
          omega
        obtain ⟨hne, hdig, hval, hhead⟩ := ih _ hdiv1 hdiv2
        refine ⟨by simp, ?_, ?_, ?_⟩
        · intro c hc
          rcases List.mem_append.mp hc with h | h
          · exact hdig c h
          · rcases List.mem_singleton.mp h with rfl
            exact isdigitB_digitChar hmod
        · rw [digitsVal_append, hval]
          rw [show digitsVal [Nat.digitChar ((n2 + 1) % 10)] =
                digitVal (Nat.digitChar ((n2 + 1) % 10)) from by
              rw [digitsVal]
              simp [List.foldl]]
          rw [digitVal_digitChar hmod]
          simp only [List.length_cons, List.length_nil, Nat.pow_one, Nat.pow_zero]
          omega
        · intro c hc
          apply hhead
          rcases List.exists_cons_of_ne_nil hne with ⟨a, t, hat⟩
          rw [hat] at hc ⊢
          simpa using hc

theorem natChars_spec (n : Nat) :
    natChars n ≠ [] ∧ (∀ c ∈ natChars n, isdigitB c = true) ∧
    digitsVal (natChars n) = n := by
  rw [natChars]
  by_cases h : n = 0
  · rw [if_pos h, h]
    exact ⟨by simp, by intro c hc; rcases List.mem_singleton.mp hc with rfl; rfl, rfl⟩
  · rw [if_neg h]
    obtain ⟨h1, h2, h3, _⟩ := natCharsGo_spec n n (by omega) le_rfl
    exact ⟨h1, h2, h3⟩

theorem strOkB_spec {s : List Char} (h : strOkB s = true) :
    '"' ∉ s ∧ '\n' ∉ s.dropLast := by
  simp only [strOkB, Bool.and_eq_true, Bool.not_eq_true'] at h
  exact ⟨by simpa using h.1, by simpa using h.2⟩

theorem isdigitB_ne {c : Char} (h : isdigitB c = true) :
    c ≠ '-' ∧ c ≠ '.' ∧ c ≠ 'e' ∧ c ≠ 'E' ∧ c ≠ '[' ∧ c ≠ '{' ∧ c ≠ '"' ∧
    c ≠ 't' ∧ c ≠ 'f' ∧ c ≠ 'n' ∧ c ≠ '\n' ∧ c ≠ ',' ∧ c ≠ ']' ∧ c ≠ '}' := by
  refine ⟨?_, ?_, ?_, ?_, ?_, ?_, ?_, ?_, ?_, ?_, ?_, ?_, ?_, ?_⟩ <;>
    (rintro rfl; exact absurd h (by decide))

theorem isdigitB_nonspace {c : Char} (h : isdigitB c = true) : isspaceB c = false := by
  have h1 : c ≠ ' ' := by rintro rfl; exact absurd h (by decide)
  have h2 : c ≠ '\t' := by rintro rfl; exact absurd h (by decide)
  have h3 : c ≠ '\n' := by rintro rfl; exact absurd h (by decide)
  have h4 : c ≠ '\x0b' := by rintro rfl; exact absurd h (by decide)
  have h5 : c ≠ '\x0c' := by rintro rfl; exact absurd h (by decide)
  have h6 : c ≠ '\r' := by rintro rfl; exact absurd h (by decide)
  simp [isspaceB, h1, h2, h3, h4, h5, h6]

theorem dfaNumberGo_cons (state : Int) (k : Nat) (c : Char) (cs : List Char) :
    dfaNumberGo state k (c :: cs) =
      if nextState state c = -1 then
        if acceptingStateInt state then some (k, JsonType.JTYPE_INT)
        else if acceptingStateFloat state then some (k, JsonType.JTYPE_FLOAT)
        else none
      else dfaNumberGo (nextState state c) (k + 1) cs := rfl

theorem dfaGo3_digits : ∀ (ds : List Char) (k : Nat) {c : Char} (cs : List Char),
    (∀ x ∈ ds, isdigitB x = true) → nextState 3 c = -1 →
    dfaNumberGo 3 k (ds ++ c :: cs) = some (k + ds.length, JsonType.JTYPE_INT) := by
  intro ds
  induction ds with
  | nil =>
    intro k c cs _ hstop
    rw [List.nil_append, dfaNumberGo_cons, if_pos hstop,
      if_pos (show acceptingStateInt 3 = true by decide)]
    simp
  | cons d ds ih =>
    intro k c cs hdig hstop
    have hd : isdigitB d = true := hdig d (by simp)
    have hnd : nextState 3 d = 3 := by
      obtain ⟨_, h2, h3, h4, _⟩ := isdigitB_ne hd
      rw [nextState_eq_3, if_neg h2, if_neg h3, if_neg h4, if_pos hd]
    rw [List.cons_append, dfaNumberGo_cons, hnd,
      if_neg (show ¬((3 : Int) = -1) by decide)]
    rw [ih (k + 1) cs (fun x hx => hdig x (by simp [hx])) hstop]
    rw [List.length_cons, show k + 1 + ds.length = k + (ds.length + 1) from by omega]

theorem dfaNumber_natChars {m : Nat} {c : Char} (cs : List Char)
    (hstop2 : nextState 2 c = -1) (hstop3 : nextState 3 c = -1) :
    dfaNumber (natChars m ++ c :: cs) =
      some ((natChars m).length, JsonType.JTYPE_INT) := by
  rw [dfaNumber]
  by_cases hm : m = 0
  · subst hm
    rw [show natChars 0 = ['0'] from rfl]
    rw [List.cons_append, List.nil_append, dfaNumberGo_cons,
      show nextState 0 '0' = 2 from rfl, if_neg (show ¬((2 : Int) = -1) by decide)]
    rw [dfaNumberGo_cons, if_pos hstop2,
      if_pos (show acceptingStateInt 2 = true by decide)]
    rfl
  · rw [natChars, if_neg hm]
    obtain ⟨hne, hdig, _, hhead⟩ := natCharsGo_spec m m (by omega) le_rfl
    rcases List.exists_cons_of_ne_nil hne with ⟨d, ds, hds⟩
    rw [hds]
    have hd : isdigitB d = true := hdig d (by rw [hds]; simp)
    have hd0 : d ≠ '0' := hhead d (by rw [hds]; rfl)
    have hnd : nextState 0 d = 3 := by
      obtain ⟨h1, _⟩ := isdigitB_ne hd
      rw [nextState_eq_0, if_neg h1, if_neg hd0, if_pos hd]
    rw [List.cons_append, dfaNumberGo_cons, hnd,
      if_neg (show ¬((3 : Int) = -1) by decide)]
    rw [dfaGo3_digits ds 1 cs (fun x hx => hdig x (by rw [hds]; simp [hx])) hstop3]
    rw [List.length_cons, show 1 + ds.length = ds.length + 1 from by omega]

theorem dfaNumber_negChars {m : Nat} (hm : 1 ≤ m) {c : Char} (cs : List Char)
    (hstop3 : nextState 3 c = -1) :
    dfaNumber ('-' :: natChars m ++ c :: cs) =
      some ((natChars m).length + 1, JsonType.JTYPE_INT) := by
  rw [dfaNumber, List.cons_append, dfaNumberGo_cons,
    show nextState 0 '-' = 1 from rfl, if_neg (show ¬((1 : Int) = -1) by decide)]
  rw [natChars, if_neg (by omega : ¬m = 0)]
  obtain ⟨hne, hdig, _, hhead⟩ := natCharsGo_spec m m hm le_rfl
  rcases List.exists_cons_of_ne_nil hne with ⟨d, ds, hds⟩
  rw [hds]
  have hd : isdigitB d = true := hdig d (by rw [hds]; simp)
  have hd0 : d ≠ '0' := hhead d (by rw [hds]; rfl)
  have hnd : nextState 1 d = 3 := by
    rw [nextState_eq_1, if_neg hd0, if_pos hd]
  rw [List.cons_append, dfaNumberGo_cons, hnd,
    if_neg (show ¬((3 : Int) = -1) by decide)]
  rw [dfaGo3_digits ds 2 cs (fun x hx => hdig x (by rw [hds]; simp [hx])) hstop3]
  rw [List.length_cons, show 2 + ds.length = ds.length + 1 + 1 from by omega]

theorem atofQ_digits {ds : List Char} (hne : ds ≠ []) (hdig : ∀ c ∈ ds, isdigitB c = true) :
    atofQ ds = (digitsVal ds : ℚ) := by
  rcases List.exists_cons_of_ne_nil hne with ⟨d, ds2, rfl⟩
  have hd : isdigitB d = true := hdig d (by simp)
  have hdm : d ≠ '-' := by rintro rfl; exact absurd hd (by decide)
  rw [atofQ]
  simp only []
  rw [dropWhile_all hdig, takeWhile_all hdig]
  norm_num [show digitsVal ([] : List Char) = 0 from rfl, Rat.mkRat_eq_div]
  intro rest h
  exact hdm (List.head_eq_of_cons_eq h)

theorem atofQ_neg_digits {ds : List Char} (hne : ds ≠ []) (hdig : ∀ c ∈ ds, isdigitB c = true) :
    atofQ ('-' :: ds) = -(digitsVal ds : ℚ) := by
  rcases List.exists_cons_of_ne_nil hne with ⟨d, ds2, rfl⟩
  rw [atofQ]
  simp only []
  rw [dropWhile_all hdig, takeWhile_all hdig]
  norm_num [show digitsVal ([] : List Char) = 0 from rfl, Rat.mkRat_eq_div]

theorem ratTrunc_natCast (m : Nat) : ratTrunc ((m : Nat) : ℚ) = (m : Int) := by
  rw [ratTrunc, Rat.num_natCast, Rat.den_natCast]
  exact Int.tdiv_one _

theorem ratTrunc_neg_natCast (m : Nat) : ratTrunc (-((m : Nat) : ℚ)) = -(m : Int) := by
  rw [ratTrunc]
  rw [show (-((m : Nat) : ℚ)).num = -((m : Nat) : ℚ).num from rfl]
  rw [show (-((m : Nat) : ℚ)).den = ((m : Nat) : ℚ).den from rfl]
  rw [Rat.num_natCast, Rat.den_natCast]
  rw [Nat.cast_one]
  exact Int.tdiv_one _

theorem natChars_no_newline (m : Nat) : '\n' ∉ natChars m := by
  intro hm
  have := (natChars_spec m).2.1 _ hm
  exact absurd this (by decide)

theorem parseValueNumber_intChars (n : Int) {c : Char} (cs : List Char)
    (hstop2 : nextState 2 c = -1) (hstop3 : nextState 3 c = -1) :
    parseValueNumber (intChars n ++ c :: cs) = some (JsonValue.VInt n, c :: cs) := by
  obtain ⟨hnatne, hnatdig, hnatval⟩ := natChars_spec n.natAbs
  by_cases hn : n < 0
  · rw [intChars, if_pos hn, parseValueNumber]
    rw [@dfaNumber_negChars n.natAbs (Int.natAbs_pos.mpr (by omega)) c cs hstop3]
    simp only [getStringInRange]
    rw [List.take_left' (by simp)]
    rw [fgetsAux_eq_self (by
      intro hm
      have h2 := (List.dropLast_sublist _).subset hm
      rcases List.mem_cons.mp h2 with h3 | h3
      · exact absurd h3.symm (by decide)
      · exact natChars_no_newline _ h3)]
    rw [List.drop_left' (by simp)]
    rw [atofQ_neg_digits hnatne hnatdig, hnatval]
    rw [if_pos trivial, ratTrunc_neg_natCast]
    rw [show -((n.natAbs : Int)) = n from by omega]
  · rw [intChars, if_neg hn, parseValueNumber]
    rw [dfaNumber_natChars cs hstop2 hstop3]
    simp only [getStringInRange]
    rw [List.take_left]
    rw [fgetsAux_eq_self (by
      intro hm
      exact natChars_no_newline _ ((List.dropLast_sublist _).subset hm))]
    rw [List.drop_left]
    rw [atofQ_digits hnatne hnatdig, hnatval]
    rw [if_pos trivial, ratTrunc_natCast]
    rw [show ((n.natAbs : Int)) = n from by omega]

theorem parseValueString_print {s : List Char} (rest : List Char) (hok : strOkB s = true) :
    parseValueString ('"' :: s ++ '"' :: rest) = some (JsonValue.VString s, rest) := by
  obtain ⟨hq, hn⟩ := strOkB_spec hok
  have h := @getNextString_spec [] s rest (by intro c hc; cases hc) hq hn
  rw [List.nil_append] at h
  rw [parseValueString, h]

theorem parseValueTrue_print (rest : List Char) :
    parseValueTrue (['t', 'r', 'u', 'e'] ++ rest) = some (JsonValue.VTrue, rest) := by
  rw [parseValueTrue]
  simp only [getStringInRange]
  rw [List.take_left' (show (['t', 'r', 'u', 'e'] : List Char).length = 4 from rfl)]
  rw [show fgetsAux ['t', 'r', 'u', 'e'] = ['t', 'r', 'u', 'e'] from rfl]
  rw [List.drop_left, if_pos rfl]

theorem parseValue_succ (fuel : Nat) (rem : List Char) :
    parseValue (fuel + 1) rem =
      (match (peekNextNonspace rem).1 with
       | none => none
       | some c =>
         if c = '[' then parseValueArray fuel (peekNextNonspace rem).2
         else if c = '{' then parseValueObject fuel (peekNextNonspace rem).2
         else if c = '-' || isdigitB c then parseValueNumber (peekNextNonspace rem).2
         else if c = '"' then parseValueString (peekNextNonspace rem).2
         else if c = 't' then parseValueTrue (peekNextNonspace rem).2
         else if c = 'f' then parseValueFalse (peekNextNonspace rem).2
         else if c = 'n' then parseValueNull (peekNextNonspace rem).2
         else none) := rfl

theorem parseValueObject_succ (fuel : Nat) (rem : List Char) :
    parseValueObject (fuel + 1) rem =
      (match parseObject fuel rem with
       | none => none
       | some (o, rem2) => some (JsonValue.VObject o, rem2)) := rfl

theorem parseValueArray_succ (fuel : Nat) (rem : List Char) :
    parseValueArray (fuel + 1) rem =
      (match parseArray fuel rem with
       | none => none
       | some (vs, rem2) => some (JsonValue.VArray vs, rem2)) := rfl

theorem parseObject_succ (fuel : Nat) (rem : List Char) :
    parseObject (fuel + 1) rem =
      (match getNextNonspace rem with
       | (none, _) => none
       | (some c, rem1) =>
         if c = '{' then
           if (peekNextNonspace rem1).1 = some '}' then
             some ([], (peekNextNonspace rem1).2.drop 1)
           else
             match parseMembers fuel (peekNextNonspace rem1).2 with
             | none => none
             | some (ms, rem3) =>
               match getNextNonspace rem3 with
               | (some c2, rem4) => if c2 = '}' then some (ms, rem4) else none
               | (none, _) => none
         else none) := rfl

theorem parseArray_succ (fuel : Nat) (rem : List Char) :
    parseArray (fuel + 1) rem =
      (match getNextNonspace rem with
       | (none, _) => none
       | (some c, rem1) =>
         if c = '[' then
           if (peekNextNonspace rem1).1 = some ']' then
             some ([], (peekNextNonspace rem1).2.drop 1)
           else
             match parseValues fuel (peekNextNonspace rem1).2 with
             | none => none
             | some (vs, rem3) =>
               match getNextNonspace rem3 with
               | (some c2, rem4) => if c2 = ']' then some (vs, rem4) else none
               | (none, _) => none
         else none) := rfl

theorem parseMember_succ (fuel : Nat) (rem : List Char) :
    parseMember (fuel + 1) rem =
      (match getNextString rem with
       | none => none
       | some (key, rem1) =>
         match getNextNonspace rem1 with
         | (some c, rem2) =>
           if c = ':' then
             match parseValue fuel rem2 with
             | none => none
             | some (v, rem3) => some ((key, v), rem3)
           else none
         | (none, _) => none) := rfl

theorem parseMembers_succ (fuel : Nat) (rem : List Char) :
    parseMembers (fuel + 1) rem =
      (match parseMember fuel rem with
       | none => none
       | some (m, rem1) =>
         if (peekNextNonspace rem1).1 = some '}' then some ([m], (peekNextNonspace rem1).2)
         else
           match parseMembersLoop fuel (peekNextNonspace rem1).2 [m] with
           | none => none
           | some (ms, rem3) => some (ms.insertionSort memberLe, rem3)) := rfl

theorem parseMembersLoop_succ (fuel : Nat) (rem : List Char) (acc : List JsonMember) :
    parseMembersLoop (fuel + 1) rem acc =
      (match getNextNonspace rem with
       | (some c, rem1) =>
         if c = ',' then
           match parseMember fuel rem1 with
           | none => none
           | some (m, rem2) =>
             if (peekNextNonspace rem2).1 = some '}' then
               some (acc ++ [m], (peekNextNonspace rem2).2)
             else parseMembersLoop fuel (peekNextNonspace rem2).2 (acc ++ [m])
         else none
       | (none, _) => none) := rfl

theorem parseValues_succ (fuel : Nat) (rem : List Char) :
    parseValues (fuel + 1) rem =
      (match parseValue fuel rem with
       | none => none
       | some (v, rem1) =>
         if (peekNextNonspace rem1).1 = some ']' then some ([v], (peekNextNonspace rem1).2)
         else parseValuesLoop fuel (peekNextNonspace rem1).2 [v]) := rfl

theorem parseValuesLoop_succ (fuel : Nat) (rem : List Char) (acc : List JsonValue) :
    parseValuesLoop (fuel + 1) rem acc =
      (match getNextNonspace rem with
       | (some c, rem1) =>
         if c = ',' then
           match parseValue fuel rem1 with
           | none => none
           | some (v, rem2) =>
             if (peekNextNonspace rem2).1 = some ']' then
               some (acc ++ [v], (peekNextNonspace rem2).2)
             else parseValuesLoop fuel (peekNextNonspace rem2).2 (acc ++ [v])
         else none
       | (none, _) => none) := rfl

theorem parseValue_succ_obj (fuel : Nat) (rem rem2 : List Char)
    (hpk : peekNextNonspace rem = (some '{', rem2)) :
    parseValue (fuel + 1) rem = parseValueObject fuel rem2 := by
  rw [parseValue_succ, hpk]
  rfl

theorem parseValue_succ_arr (fuel : Nat) (rem rem2 : List Char)
    (hpk : peekNextNonspace rem = (some '[', rem2)) :
    parseValue (fuel + 1) rem = parseValueArray fuel rem2 := by
  rw [parseValue_succ, hpk]
  rfl

theorem parseValue_succ_str (fuel : Nat) (rem rem2 : List Char)
    (hpk : peekNextNonspace rem = (some '"', rem2)) :
    parseValue (fuel + 1) rem = parseValueString rem2 := by
  rw [parseValue_succ, hpk]
  rfl

theorem parseValue_succ_t (fuel : Nat) (rem rem2 : List Char)
    (hpk : peekNextNonspace rem = (some 't', rem2)) :
    parseValue (fuel + 1) rem = parseValueTrue rem2 := by
  rw [parseValue_succ, hpk]
  rfl

theorem parseValue_succ_num (fuel : Nat) (rem : List Char) (c : Char) (rem2 : List Char)
    (hpk : peekNextNonspace rem = (some c, rem2))
    (hcnum : (decide (c = '-') || isdigitB c) = true)
    (hc1 : c ≠ '[') (hc2 : c ≠ '{') :
    parseValue (fuel + 1) rem = parseValueNumber rem2 := by
  rw [parseValue_succ, hpk]
  simp only []
  rw [if_neg hc1, if_neg hc2, if_pos hcnum]

theorem insertSorted_id {ms : List JsonMember} (h : keysSortedB ms = true) :
    ms.insertionSort memberLe = ms :=
  List.Sorted.insertionSort_eq ((keysSortedB_iff_pairwise ms).mp h)

theorem jsonObjectPrint_head_ex (ms : List JsonMember) (d : Nat) :
    ∃ t, jsonObjectPrint ms d = '{' :: t := by
  cases ms <;> exact ⟨_, rfl⟩

theorem jsonArrayPrint_head_ex (vs : List JsonValue) (d : Nat) :
    ∃ t, jsonArrayPrint vs d = '[' :: t := by
  cases vs <;> exact ⟨_, rfl⟩

theorem jsonMemberPrint_head_ex (m : JsonMember) (d : Nat) :
    ∃ t, jsonMemberPrint m d = '"' :: t := by
  rcases m with ⟨k, v⟩
  exact ⟨_, rfl⟩

theorem natChars_head_digit (m : Nat) :
    ∃ d t, natChars m = d :: t ∧ isdigitB d = true := by
  obtain ⟨hne, hdig, _⟩ := natChars_spec m
  rcases List.exists_cons_of_ne_nil hne with ⟨d, t, hdt⟩
  exact ⟨d, t, hdt, hdig d (by rw [hdt]; simp)⟩

theorem getNextNonspace_cons {c : Char} (l : List Char) (hc : isspaceB c = false) :
    getNextNonspace (c :: l) = (some c, l) := by
  have h := @getNextNonspace_ws [] c l (by intro x hx; cases hx) hc
  rwa [List.nil_append] at h

theorem peekNextNonspace_cons {c : Char} (l : List Char) (hc : isspaceB c = false) :
    peekNextNonspace (c :: l) = (some c, c :: l) := by
  have h := @peekNextNonspace_ws [] c l (by intro x hx; cases hx) hc
  rwa [List.nil_append] at h

theorem formatF_shape (q : ℚ) : ∃ A B, formatF q =
    (if q.num < 0 then ['-'] else []) ++ natChars A ++ '.' :: pad6 B :=
  ⟨_, _, rfl⟩

theorem jsonValuePrint_head_ex (v : JsonValue) (d : Nat) :
    ∃ c t, jsonValuePrint v d = c :: t ∧ isspaceB c = false ∧ c ≠ ']' := by
  cases v with
  | VObject ms =>
    obtain ⟨t, ht⟩ := jsonObjectPrint_head_ex ms d
    exact ⟨_, _, ht, by decide, by decide⟩
  | VArray vs =>
    obtain ⟨t, ht⟩ := jsonArrayPrint_head_ex vs d
    exact ⟨_, _, ht, by decide, by decide⟩
  | VString s => exact ⟨'"', _, rfl, by decide, by decide⟩
  | VTrue => exact ⟨'t', _, rfl, by decide, by decide⟩
  | VFalse => exact ⟨'f', _, rfl, by decide, by decide⟩
  | VNull => exact ⟨'n', _, rfl, by decide, by decide⟩
  | VInt n =>
    rw [show jsonValuePrint (JsonValue.VInt n) d = intChars n from rfl, intChars]
    by_cases hn : n < 0
    · rw [if_pos hn]
      exact ⟨'-', _, rfl, by decide, by decide⟩
    · rw [if_neg hn]
      obtain ⟨d0, t0, hdt, hd0⟩ := natChars_head_digit n.natAbs
      obtain ⟨_, _, _, _, _, _, _, _, _, _, _, _, hrb, _⟩ := isdigitB_ne hd0
      exact ⟨d0, t0, hdt, isdigitB_nonspace hd0, hrb⟩
  | VFloat q =>
    rw [show jsonValuePrint (JsonValue.VFloat q) d = formatF q from rfl]
    obtain ⟨A, B, hAB⟩ := formatF_shape q
    rw [hAB]
    by_cases hq : q.num < 0
    · rw [if_pos hq]
      exact ⟨'-', _, rfl, by decide, by decide⟩
    · rw [if_neg hq, List.nil_append]
      obtain ⟨d0, t0, hdt, hd0⟩ := natChars_head_digit A
      rw [hdt]
      obtain ⟨_, _, _, _, _, _, _, _, _, _, _, _, hrb, _⟩ := isdigitB_ne hd0
      exact ⟨d0, t0 ++ '.' :: pad6 B, by rw [List.cons_append],
        isdigitB_nonspace hd0, hrb⟩

theorem printParse_all : ∀ fuel : Nat,
    (∀ (v : JsonValue) (d : Nat) (ws rest : List Char),
        parseInvB v = true → noFloatB v = true →
        (∀ x ∈ ws, isspaceB x = true) →
        (∃ c2 rest2, rest = c2 :: rest2 ∧ nextState 2 c2 = -1 ∧ nextState 3 c2 = -1) →
        4 * (ws ++ jsonValuePrint v d ++ rest).length + 9 ≤ fuel →
        parseValue fuel (ws ++ jsonValuePrint v d ++ rest) = some (v, rest)) ∧
    (∀ (ms : List JsonMember) (d : Nat) (rest : List Char),
        keysSortedB ms = true → parseInvMembers ms = true → noFloatMembers ms = true →
        4 * (jsonObjectPrint ms d ++ rest).length + 8 ≤ fuel →
        parseValueObject fuel (jsonObjectPrint ms d ++ rest) =
          some (JsonValue.VObject ms, rest)) ∧
    (∀ (vs : List JsonValue) (d : Nat) (rest : List Char),
        parseInvValues vs = true → noFloatValues vs = true →
        4 * (jsonArrayPrint vs d ++ rest).length + 8 ≤ fuel →
        parseValueArray fuel (jsonArrayPrint vs d ++ rest) =
          some (JsonValue.VArray vs, rest)) ∧
    (∀ (ms : List JsonMember) (d : Nat) (rest : List Char),
        keysSortedB ms = true → parseInvMembers ms = true → noFloatMembers ms = true →
        4 * (jsonObjectPrint ms d ++ rest).length + 7 ≤ fuel →
        parseObject fuel (jsonObjectPrint ms d ++ rest) = some (ms, rest)) ∧
    (∀ (vs : List JsonValue) (d : Nat) (rest : List Char),
        parseInvValues vs = true → noFloatValues vs = true →
        4 * (jsonArrayPrint vs d ++ rest).length + 7 ≤ fuel →
        parseArray fuel (jsonArrayPrint vs d ++ rest) = some (vs, rest)) ∧
    (∀ (m : JsonMember) (d : Nat) (ws rest : List Char),
        strOkB m.1 = true → parseInvB m.2 = true → noFloatB m.2 = true →
        (∀ x ∈ ws, isspaceB x = true) →
        (∃ c2 rest2, rest = c2 :: rest2 ∧ nextState 2 c2 = -1 ∧ nextState 3 c2 = -1) →
        4 * (ws ++ jsonMemberPrint m d ++ rest).length + 10 ≤ fuel →
        parseMember fuel (ws ++ jsonMemberPrint m d ++ rest) = some (m, rest)) ∧
    (∀ (m : JsonMember) (msr : List JsonMember) (d : Nat) (rest : List Char),
        keysSortedB (m :: msr) = true → parseInvMembers (m :: msr) = true →
        noFloatMembers (m :: msr) = true →
        4 * (jsonMemberPrint m d ++ jsonMembersPrint msr d ++
              '\n' :: tab d ++ '}' :: rest).length + 11 ≤ fuel →
        parseMembers fuel (jsonMemberPrint m d ++ jsonMembersPrint msr d ++
              '\n' :: tab d ++ '}' :: rest) = some (m :: msr, '}' :: rest)) ∧
    (∀ (msr : List JsonMember) (acc : List JsonMember) (d : Nat) (rest : List Char),
        msr ≠ [] → parseInvMembers msr = true → noFloatMembers msr = true →
        4 * (jsonMembersPrint msr d ++ '\n' :: tab d ++ '}' :: rest).length + 9 ≤ fuel →
        parseMembersLoop fuel (jsonMembersPrint msr d ++ '\n' :: tab d ++ '}' :: rest) acc =
          some (acc ++ msr, '}' :: rest)) ∧
    (∀ (v : JsonValue) (vsr : List JsonValue) (d : Nat) (rest : List Char),
        parseInvValues (v :: vsr) = true → noFloatValues (v :: vsr) = true →
        4 * (jsonValuePrint v (d + 1) ++ jsonValuesPrint vsr d ++
              '\n' :: tab d ++ ']' :: rest).length + 10 ≤ fuel →
        parseValues fuel (jsonValuePrint v (d + 1) ++ jsonValuesPrint vsr d ++
              '\n' :: tab d ++ ']' :: rest) = some (v :: vsr, ']' :: rest)) ∧
    (∀ (vsr : List JsonValue) (acc : List JsonValue) (d : Nat) (rest : List Char),
        vsr ≠ [] → parseInvValues vsr = true → noFloatValues vsr = true →
        4 * (jsonValuesPrint vsr d ++ '\n' :: tab d ++ ']' :: rest).length + 9 ≤ fuel →
        parseValuesLoop fuel (jsonValuesPrint vsr d ++ '\n' :: tab d ++ ']' :: rest) acc =
          some (acc ++ vsr, ']' :: rest)) := by
  intro fuel
  induction fuel with
  | zero =>
    refine ⟨?_, ?_, ?_, ?_, ?_, ?_, ?_, ?_, ?_, ?_⟩
    · intro v d ws rest _ _ _ _ hf
      omega
    · intro ms d rest _ _ _ hf
      omega
    · intro vs d rest _ _ hf
      omega
    · intro ms d rest _ _ _ hf
      omega
    · intro vs d rest _ _ hf
      omega
    · intro m d ws rest _ _ _ _ _ hf
      omega
    · intro m msr d rest _ _ _ hf
      omega
    · intro msr acc d rest _ _ _ hf
      omega
    · intro v vsr d rest _ _ hf
      omega
    · intro vsr acc d rest _ _ _ hf
      omega
  | succ fuel ih =>
    obtain ⟨ihv, ihvo, ihva, iho, iha, ihmb, ihms, ihml, ihvs, ihvl⟩ := ih
    refine ⟨?_, ?_, ?_, ?_, ?_, ?_, ?_, ?_, ?_, ?_⟩
    · -- parseValue
      intro v d ws rest hinv hnf hws hstop hfuel
      cases v with
      | VFalse => exact absurd hinv (by decide)
      | VNull => exact absurd hinv (by decide)
      | VFloat q =>
        rw [show noFloatB (JsonValue.VFloat q) = false from rfl] at hnf
        exact Bool.noConfusion hnf
      | VTrue =>
        rw [show jsonValuePrint JsonValue.VTrue d = ['t', 'r', 'u', 'e'] from rfl]
        have hpk := peekNextNonspace_ws ('r' :: 'u' :: 'e' :: rest) hws
          (show isspaceB 't' = false by decide)
        simp only [List.append_assoc, List.cons_append, List.nil_append] at hpk ⊢
        rw [parseValue_succ_t fuel _ _ hpk]
        exact parseValueTrue_print rest
      | VString str =>
        rw [show parseInvB (JsonValue.VString str) = strOkB str from rfl] at hinv
        rw [show jsonValuePrint (JsonValue.VString str) d = '"' :: str ++ ['"'] from rfl]
        have hpk := peekNextNonspace_ws (str ++ '"' :: rest) hws
          (show isspaceB '"' = false by decide)
        simp only [List.cons_append, List.nil_append, List.append_assoc] at hpk ⊢
        rw [parseValue_succ_str fuel _ _ hpk]
        exact parseValueString_print rest hinv
      | VInt n =>
        obtain ⟨c0, rest2, hre, hsn2, hsn3⟩ := hstop
        subst hre
        rw [show jsonValuePrint (JsonValue.VInt n) d = intChars n from rfl]
        by_cases hneg : n < 0
        · rw [intChars, if_pos hneg]
          have hpk := peekNextNonspace_ws (natChars n.natAbs ++ c0 :: rest2) hws
            (show isspaceB '-' = false by decide)
          simp only [List.cons_append, List.nil_append, List.append_assoc] at hpk ⊢
          rw [parseValue_succ_num fuel _ '-' _ hpk (by decide) (by decide) (by decide)]
          have h2 := parseValueNumber_intChars n rest2 hsn2 hsn3
          rw [intChars, if_pos hneg] at h2
          simp only [List.cons_append, List.append_assoc] at h2
          exact h2
        · obtain ⟨d0, t0, hdt, hd0⟩ := natChars_head_digit n.natAbs
          rw [intChars, if_neg hneg, hdt]
          have hpk := peekNextNonspace_ws (t0 ++ c0 :: rest2) hws (isdigitB_nonspace hd0)
          simp only [List.cons_append, List.nil_append, List.append_assoc] at hpk ⊢
          obtain ⟨hne1, _, _, _, hne5, hne6, _⟩ := isdigitB_ne hd0
          rw [parseValue_succ_num fuel _ d0 _ hpk (by simp [hd0]) hne5 hne6]
          have h2 := parseValueNumber_intChars n rest2 hsn2 hsn3
          rw [intChars, if_neg hneg, hdt] at h2
          simp only [List.cons_append, List.append_assoc] at h2
          exact h2
      | VObject ms =>
        rw [show parseInvB (JsonValue.VObject ms) =
              (keysSortedB ms && parseInvMembers ms) from rfl, Bool.and_eq_true] at hinv
        rw [show noFloatB (JsonValue.VObject ms) = noFloatMembers ms from rfl] at hnf
        rw [show jsonValuePrint (JsonValue.VObject ms) d = jsonObjectPrint ms d from rfl]
          at hfuel ⊢
        have h2 := ihvo ms d rest hinv.1 hinv.2 hnf (by
          simp only [List.length_append] at hfuel ⊢
          omega)
        obtain ⟨t0, hobj⟩ := jsonObjectPrint_head_ex ms d
        rw [hobj] at h2 ⊢
        have hpk := peekNextNonspace_ws (t0 ++ rest) hws
          (show isspaceB '{' = false by decide)
        simp only [List.cons_append, List.nil_append, List.append_assoc] at hpk h2 ⊢
        rw [parseValue_succ_obj fuel _ _ hpk]
        exact h2
      | VArray vs =>
        rw [show parseInvB (JsonValue.VArray vs) = parseInvValues vs from rfl] at hinv
        rw [show noFloatB (JsonValue.VArray vs) = noFloatValues vs from rfl] at hnf
        rw [show jsonValuePrint (JsonValue.VArray vs) d = jsonArrayPrint vs d from rfl]
          at hfuel ⊢
        have h2 := ihva vs d rest hinv hnf (by
          simp only [List.length_append] at hfuel ⊢
          omega)
        obtain ⟨t0, harr⟩ := jsonArrayPrint_head_ex vs d
        rw [harr] at h2 ⊢
        have hpk := peekNextNonspace_ws (t0 ++ rest) hws
          (show isspaceB '[' = false by decide)
        simp only [List.cons_append, List.nil_append, List.append_assoc] at hpk h2 ⊢
        rw [parseValue_succ_arr fuel _ _ hpk]
        exact h2
    · -- parseValueObject
      intro ms d rest hs hinv hnf hfuel
      rw [parseValueObject_succ]
      rw [iho ms d rest hs hinv hnf (by
        simp only [List.length_append] at hfuel ⊢
        omega)]
    · -- parseValueArray
      intro vs d rest hinv hnf hfuel
      rw [parseValueArray_succ]
      rw [iha vs d rest hinv hnf (by
        simp only [List.length_append] at hfuel ⊢
        omega)]
    · -- parseObject
      intro ms d rest hs hinv hnf hfuel
      cases ms with
      | nil =>
        rw [show jsonObjectPrint [] d = ['{', '}'] from rfl]
        simp only [List.append_assoc, List.cons_append, List.nil_append]
        rw [parseObject_succ, getNextNonspace_cons _ (by decide)]
        simp only []
        rw [if_pos trivial, peekNextNonspace_cons _ (by decide)]
        simp only []
        rfl
      | cons m msr =>
        rw [show jsonObjectPrint (m :: msr) d =
              ['{', '\n'] ++ tab (d + 1) ++ jsonMemberPrint m d
                ++ jsonMembersPrint msr d ++ '\n' :: tab d ++ ['}'] from rfl]
          at hfuel ⊢
        have h2 := ihms m msr d rest hs hinv hnf (by
          simp only [List.append_assoc, List.cons_append, List.nil_append,
            List.length_append, List.length_cons] at hfuel ⊢
          omega)
        obtain ⟨tm, htm⟩ := jsonMemberPrint_head_ex m d
        rw [htm] at h2 ⊢
        simp only [List.append_assoc, List.cons_append, List.nil_append] at h2 ⊢
        rw [parseObject_succ, getNextNonspace_cons _ (by decide)]
        simp only []
        rw [if_pos trivial]
        have hwsnl : ∀ x ∈ '\n' :: tab (d + 1), isspaceB x = true := by
          intro x hx
          rcases List.mem_cons.mp hx with rfl | hx2
          · rfl
          · exact tab_ws _ x hx2
        have hpk := peekNextNonspace_ws
          (tm ++ (jsonMembersPrint msr d ++ '\n' :: (tab d ++ '}' :: rest)))
          hwsnl (show isspaceB '"' = false by decide)
        simp only [List.append_assoc, List.cons_append, List.nil_append] at hpk
        rw [hpk]
        simp only []
        rw [if_neg (show ¬(some '"' = some '}') by decide), h2]
        simp only []
        rw [getNextNonspace_cons _ (by decide)]
        simp only []
        rw [if_pos trivial]
    · -- parseArray
      intro vs d rest hinv hnf hfuel
      cases vs with
      | nil =>
        rw [show jsonArrayPrint [] d = ['[', ']'] from rfl]
        simp only [List.append_assoc, List.cons_append, List.nil_append]
        rw [parseArray_succ, getNextNonspace_cons _ (by decide)]
        simp only []
        rw [if_pos trivial, peekNextNonspace_cons _ (by decide)]
        simp only []
        rfl
      | cons v vsr =>
        rw [show jsonArrayPrint (v :: vsr) d =
              ['[', '\n'] ++ tab (d + 1) ++ jsonValuePrint v (d + 1)
                ++ jsonValuesPrint vsr d ++ '\n' :: tab d ++ [']'] from rfl]
          at hfuel ⊢
        have h2 := ihvs v vsr d rest hinv hnf (by
          simp only [List.append_assoc, List.cons_append, List.nil_append,
            List.length_append, List.length_cons] at hfuel ⊢
          omega)
        obtain ⟨cv, tv, htv, hcv, hcvne⟩ := jsonValuePrint_head_ex v (d + 1)
        rw [htv] at h2 ⊢
        simp only [List.append_assoc, List.cons_append, List.nil_append] at h2 ⊢
        rw [parseArray_succ, getNextNonspace_cons _ (by decide)]
        simp only []
        rw [if_pos trivial]
        have hwsnl : ∀ x ∈ '\n' :: tab (d + 1), isspaceB x = true := by
          intro x hx
          rcases List.mem_cons.mp hx with rfl | hx2
          · rfl
          · exact tab_ws _ x hx2
        have hpk := peekNextNonspace_ws
          (tv ++ (jsonValuesPrint vsr d ++ '\n' :: (tab d ++ ']' :: rest)))
          hwsnl hcv
        simp only [List.append_assoc, List.cons_append, List.nil_append] at hpk
        rw [hpk]
        simp only []
        rw [if_neg (show ¬(some cv = some ']') from
          fun hcc => hcvne (Option.some.inj hcc)), h2]
        simp only []
        rw [getNextNonspace_cons _ (by decide)]
        simp only []
        rw [if_pos trivial]
    · -- parseMember
      intro m d ws rest hk hinvv hnfv hws hstop hfuel
      rcases m with ⟨k, v⟩
      rw [show jsonMemberPrint (k, v) d =
            '"' :: k ++ ['"', ':', ' '] ++ jsonValuePrint v (d + 1) from rfl]
        at hfuel ⊢
      have hv := ihv v (d + 1) [' '] rest hinvv hnfv
        (by
          intro x hx
          rcases List.mem_singleton.mp hx with rfl
          rfl) hstop
        (by
          simp only [List.append_assoc, List.cons_append, List.nil_append,
            List.length_append, List.length_cons, List.length_nil] at hfuel ⊢
          omega)
      obtain ⟨hq, hn⟩ := strOkB_spec hk
      have hgs := @getNextString_spec ws k
        (':' :: ' ' :: (jsonValuePrint v (d + 1) ++ rest)) hws hq hn
      simp only [List.append_assoc, List.cons_append, List.nil_append] at hgs hv ⊢
      rw [parseMember_succ, hgs]
      simp only []
      rw [getNextNonspace_cons _ (by decide)]
      simp only []
      rw [if_pos trivial, hv]
    · -- parseMembers
      intro m msr d rest hs hinv hnf hfuel
      rw [show parseInvMembers (m :: msr) =
            (strOkB m.1 && parseInvB m.2 && parseInvMembers msr) from rfl,
        Bool.and_eq_true, Bool.and_eq_true] at hinv
      rw [show noFloatMembers (m :: msr) = (noFloatB m.2 && noFloatMembers msr) from rfl,
        Bool.and_eq_true] at hnf
      cases msr with
      | nil =>
        have hmb := ihmb m d [] ('\n' :: (tab d ++ '}' :: rest))
          hinv.1.1 hinv.1.2 hnf.1 (by intro x hx; cases hx)
          ⟨'\n', tab d ++ '}' :: rest, rfl, by decide, by decide⟩
          (by
            simp only [jsonMembersPrint, List.append_assoc, List.cons_append,
              List.nil_append, List.length_append, List.length_cons,
              List.length_nil] at hfuel ⊢
            omega)
        simp only [jsonMembersPrint, List.append_assoc, List.cons_append,
          List.nil_append] at hmb ⊢
        rw [parseMembers_succ, hmb]
        simp only []
        have hwsc : ∀ x ∈ '\n' :: tab d, isspaceB x = true := by
          intro x hx
          rcases List.mem_cons.mp hx with rfl | hx2
          · rfl
          · exact tab_ws _ x hx2
        have hpk := peekNextNonspace_ws rest hwsc (show isspaceB '}' = false by decide)
        simp only [List.append_assoc, List.cons_append, List.nil_append] at hpk
        rw [hpk]
        simp only []
        rw [if_pos trivial]
      | cons m2 msr2 =>
        have hmb := ihmb m d []
          (jsonMembersPrint (m2 :: msr2) d ++ '\n' :: tab d ++ '}' :: rest)
          hinv.1.1 hinv.1.2 hnf.1 (by intro x hx; cases hx)
          (by
            refine ⟨',', '\n' :: (tab (d + 1) ++ (jsonMemberPrint m2 d ++
              (jsonMembersPrint msr2 d ++ '\n' :: (tab d ++ '}' :: rest)))), ?_,
              by decide, by decide⟩
            simp [jsonMembersPrint])
          (by
            simp only [jsonMembersPrint, List.append_assoc, List.cons_append,
              List.nil_append, List.length_append, List.length_cons,
              List.length_nil] at hfuel ⊢
            omega)
        have hml := ihml (m2 :: msr2) [m] d rest (by simp) hinv.2 hnf.2
          (by
            simp only [jsonMembersPrint, List.append_assoc, List.cons_append,
              List.nil_append, List.length_append, List.length_cons,
              List.length_nil] at hfuel ⊢
            omega)
        simp only [jsonMembersPrint, List.append_assoc, List.cons_append,
          List.nil_append] at hmb hml ⊢
        rw [parseMembers_succ, hmb]
        simp only []
        rw [peekNextNonspace_cons _ (by decide)]
        simp only []
        rw [if_neg (show ¬(some ',' = some '}') by decide), hml]
        simp only []
        rw [insertSorted_id hs]
    · -- parseMembersLoop
      intro msr acc d rest hne hinv hnf hfuel
      cases msr with
      | nil => exact absurd rfl hne
      | cons m msr2 =>
        rw [show parseInvMembers (m :: msr2) =
              (strOkB m.1 && parseInvB m.2 && parseInvMembers msr2) from rfl,
          Bool.and_eq_true, Bool.and_eq_true] at hinv
        rw [show noFloatMembers (m :: msr2) =
              (noFloatB m.2 && noFloatMembers msr2) from rfl,
          Bool.and_eq_true] at hnf
        have hwsnl : ∀ x ∈ '\n' :: tab (d + 1), isspaceB x = true := by
          intro x hx
          rcases List.mem_cons.mp hx with rfl | hx2
          · rfl
          · exact tab_ws _ x hx2
        cases msr2 with
        | nil =>
          have hmb := ihmb m d ('\n' :: tab (d + 1)) ('\n' :: (tab d ++ '}' :: rest))
            hinv.1.1 hinv.1.2 hnf.1 hwsnl
            ⟨'\n', tab d ++ '}' :: rest, rfl, by decide, by decide⟩
            (by
              simp only [jsonMembersPrint, List.append_assoc, List.cons_append,
                List.nil_append, List.length_append, List.length_cons,
                List.length_nil] at hfuel ⊢
              omega)
          simp only [jsonMembersPrint, List.append_assoc, List.cons_append,
            List.nil_append] at hmb ⊢
          rw [parseMembersLoop_succ, getNextNonspace_cons _ (by decide)]
          simp only []
          rw [if_pos trivial, hmb]
          simp only []
          have hwsc : ∀ x ∈ '\n' :: tab d, isspaceB x = true := by
            intro x hx
            rcases List.mem_cons.mp hx with rfl | hx2
            · rfl
            · exact tab_ws _ x hx2
          have hpk := peekNextNonspace_ws rest hwsc (show isspaceB '}' = false by decide)
          simp only [List.append_assoc, List.cons_append, List.nil_append] at hpk
          rw [hpk]
          simp only []
          rw [if_pos trivial]
        | cons m2 msr3 =>
          have hmb := ihmb m d ('\n' :: tab (d + 1))
            (jsonMembersPrint (m2 :: msr3) d ++ '\n' :: tab d ++ '}' :: rest)
            hinv.1.1 hinv.1.2 hnf.1 hwsnl
            (by
              refine ⟨',', '\n' :: (tab (d + 1) ++ (jsonMemberPrint m2 d ++
                (jsonMembersPrint msr3 d ++ '\n' :: (tab d ++ '}' :: rest)))), ?_,
                by decide, by decide⟩
              simp [jsonMembersPrint])
            (by
              simp only [jsonMembersPrint, List.append_assoc, List.cons_append,
                List.nil_append, List.length_append, List.length_cons,
                List.length_nil] at hfuel ⊢
              omega)
          have hml := ihml (m2 :: msr3) (acc ++ [m]) d rest (by simp) hinv.2 hnf.2
            (by
              simp only [jsonMembersPrint, List.append_assoc, List.cons_append,
                List.nil_append, List.length_append, List.length_cons,
                List.length_nil] at hfuel ⊢
              omega)
          simp only [jsonMembersPrint, List.append_assoc, List.cons_append,
            List.nil_append] at hmb hml ⊢
          rw [parseMembersLoop_succ, getNextNonspace_cons _ (by decide)]
          simp only []
          rw [if_pos trivial, hmb]
          simp only []
          rw [peekNextNonspace_cons _ (by decide)]
          simp only []
          rw [if_neg (show ¬(some ',' = some '}') by decide), hml]
    · -- parseValues
      intro v vsr d rest hinv hnf hfuel
      rw [show parseInvValues (v :: vsr) = (parseInvB v && parseInvValues vsr) from rfl,
        Bool.and_eq_true] at hinv
      rw [show noFloatValues (v :: vsr) = (noFloatB v && noFloatValues vsr) from rfl,
        Bool.and_eq_true] at hnf
      cases vsr with
      | nil =>
        have hv := ihv v (d + 1) [] ('\n' :: (tab d ++ ']' :: rest)) hinv.1 hnf.1
          (by intro x hx; cases hx)
          ⟨'\n', tab d ++ ']' :: rest, rfl, by decide, by decide⟩
          (by
            simp only [jsonValuesPrint, List.append_assoc, List.cons_append,
              List.nil_append, List.length_append, List.length_cons,
              List.length_nil] at hfuel ⊢
            omega)
        simp only [jsonValuesPrint, List.append_assoc, List.cons_append,
          List.nil_append] at hv ⊢
        rw [parseValues_succ, hv]
        simp only []
        have hwsc : ∀ x ∈ '\n' :: tab d, isspaceB x = true := by
          intro x hx
          rcases List.mem_cons.mp hx with rfl | hx2
          · rfl
          · exact tab_ws _ x hx2
        have hpk := peekNextNonspace_ws rest hwsc (show isspaceB ']' = false by decide)
        simp only [List.append_assoc, List.cons_append, List.nil_append] at hpk
        rw [hpk]
        simp only []
        rw [if_pos trivial]
      | cons v2 vsr2 =>
        have hv := ihv v (d + 1) []
          (jsonValuesPrint (v2 :: vsr2) d ++ '\n' :: tab d ++ ']' :: rest) hinv.1 hnf.1
          (by intro x hx; cases hx)
          (by
            refine ⟨',', '\n' :: (tab (d + 1) ++ (jsonValuePrint v2 (d + 1) ++
              (jsonValuesPrint vsr2 d ++ '\n' :: (tab d ++ ']' :: rest)))), ?_,
              by decide, by decide⟩
            simp [jsonValuesPrint])
          (by
            simp only [jsonValuesPrint, List.append_assoc, List.cons_append,
              List.nil_append, List.length_append, List.length_cons,
              List.length_nil] at hfuel ⊢
            omega)
        have hvl := ihvl (v2 :: vsr2) [v] d rest (by simp) hinv.2 hnf.2
          (by
            simp only [jsonValuesPrint, List.append_assoc, List.cons_append,
              List.nil_append, List.length_append, List.length_cons,
              List.length_nil] at hfuel ⊢
            omega)
        simp only [jsonValuesPrint, List.append_assoc, List.cons_append,
          List.nil_append] at hv hvl ⊢
        rw [parseValues_succ, hv]
        simp only []
        rw [peekNextNonspace_cons _ (by decide)]
        simp only []
        rw [if_neg (show ¬(some ',' = some ']') by decide), hvl]
    · -- parseValuesLoop
      intro vsr acc d rest hne hinv hnf hfuel
      cases vsr with
      | nil => exact absurd rfl hne
      | cons v vsr2 =>
        rw [show parseInvValues (v :: vsr2) =
              (parseInvB v && parseInvValues vsr2) from rfl,
          Bool.and_eq_true] at hinv
        rw [show noFloatValues (v :: vsr2) =
              (noFloatB v && noFloatValues vsr2) from rfl,
          Bool.and_eq_true] at hnf
        have hwsnl : ∀ x ∈ '\n' :: tab (d + 1), isspaceB x = true := by
          intro x hx
          rcases List.mem_cons.mp hx with rfl | hx2
          · rfl
          · exact tab_ws _ x hx2
        cases vsr2 with
        | nil =>
          have hv := ihv v (d + 1) ('\n' :: tab (d + 1)) ('\n' :: (tab d ++ ']' :: rest))
            hinv.1 hnf.1 hwsnl
            ⟨'\n', tab d ++ ']' :: rest, rfl, by decide, by decide⟩
            (by
              simp only [jsonValuesPrint, List.append_assoc, List.cons_append,
                List.nil_append, List.length_append, List.length_cons,
                List.length_nil] at hfuel ⊢
              omega)
          simp only [jsonValuesPrint, List.append_assoc, List.cons_append,
            List.nil_append] at hv ⊢
          rw [parseValuesLoop_succ, getNextNonspace_cons _ (by decide)]
          simp only []
          rw [if_pos trivial, hv]
          simp only []
          have hwsc : ∀ x ∈ '\n' :: tab d, isspaceB x = true := by
            intro x hx
            rcases List.mem_cons.mp hx with rfl | hx2
            · rfl
            · exact tab_ws _ x hx2
          have hpk := peekNextNonspace_ws rest hwsc (show isspaceB ']' = false by decide)
          simp only [List.append_assoc, List.cons_append, List.nil_append] at hpk
          rw [hpk]
          simp only []
          rw [if_pos trivial]
        | cons v2 vsr3 =>
          have hv := ihv v (d + 1) ('\n' :: tab (d + 1))
            (jsonValuesPrint (v2 :: vsr3) d ++ '\n' :: tab d ++ ']' :: rest)
            hinv.1 hnf.1 hwsnl
            (by
              refine ⟨',', '\n' :: (tab (d + 1) ++ (jsonValuePrint v2 (d + 1) ++
                (jsonValuesPrint vsr3 d ++ '\n' :: (tab d ++ ']' :: rest)))), ?_,
                by decide, by decide⟩
              simp [jsonValuesPrint])
            (by
              simp only [jsonValuesPrint, List.append_assoc, List.cons_append,
                List.nil_append, List.length_append, List.length_cons,
                List.length_nil] at hfuel ⊢
              omega)
          have hvl := ihvl (v2 :: vsr3) (acc ++ [v]) d rest (by simp) hinv.2 hnf.2
            (by
              simp only [jsonValuesPrint, List.append_assoc, List.cons_append,
                List.nil_append, List.length_append, List.length_cons,
                List.length_nil] at hfuel ⊢
              omega)
          simp only [jsonValuesPrint, List.append_assoc, List.cons_append,
            List.nil_append] at hv hvl ⊢
          rw [parseValuesLoop_succ, getNextNonspace_cons _ (by decide)]
          simp only []
          rw [if_pos trivial, hv]
          simp only []
          rw [peekNextNonspace_cons _ (by decide)]
          simp only []
          rw [if_neg (show ¬(some ',' = some ']') by decide), hvl]

/-- Claim C1: for every object produced by a successful parse and every key,
`json_get_value` (modelled from the spec as binary search over the sorted
member sequence) succeeds iff the key occurs among the object's keys, and
any value it returns is the value of a member with that key. -/
theorem claim_C1 : ∀ (fuel : Nat) (D : List Char) (o : JsonObjectT)
    (rem k : List Char),
    parseObject fuel D = some (o, rem) →
    (((json_get_value o k).isSome = true) ↔ k ∈ o.map Prod.fst) ∧
    (∀ v, json_get_value o k = some v → ∃ m ∈ o, m.1 = k ∧ m.2 = v) := by
  intro fuel D o rem k h
  have hinv := (parseInv_all fuel).2.2.2.1 _ _ _ h
  have hsorted : List.Pairwise memberLe o := (keysSortedB_iff_pairwise o).mp hinv.1
  refine ⟨⟨?_, ?_⟩, ?_⟩
  · intro hsome
    rcases Option.isSome_iff_exists.mp hsome with ⟨v, hv⟩
    rcases jsonGetValueGo_sound _ _ _ _ hv with ⟨m, hm, hk, _⟩
    exact List.mem_map.mpr ⟨m, hm, hk⟩
  · intro hmem
    rcases List.mem_map.mp hmem with ⟨m, hm, hk⟩
    rcases List.getElem_of_mem hm with ⟨j, hj, hjm⟩
    apply jsonGetValueGo_complete hsorted (o.length + 1) 0 o.length le_rfl (by omega)
    refine ⟨j, by omega, hj, hj, ?_⟩
    rw [hjm]
    exact hk
  · intro v hv
    exact jsonGetValueGo_sound _ _ _ _ hv

/-- Witness for C1 at a concrete parse: the object parsed from
`{"b":1,"a":2}` answers lookups for the present key `a` and refuses a
lookup for the absent key `c`. -/
theorem claim_C1_witness :
    ((((json_get_value [(['a'], JsonValue.VInt 2), (['b'], JsonValue.VInt 1)]
        ['a']).isSome = true) ↔
      ['a'] ∈ [(['a'], JsonValue.VInt 2), (['b'], JsonValue.VInt 1)].map Prod.fst) ∧
    (∀ v, json_get_value [(['a'], JsonValue.VInt 2), (['b'], JsonValue.VInt 1)]
        ['a'] = some v →
      ∃ m ∈ [(['a'], JsonValue.VInt 2), (['b'], JsonValue.VInt 1)],
        m.1 = ['a'] ∧ m.2 = v)) :=
  claim_C1 64 ['{', '"', 'b', '"', ':', '1', ',', '"', 'a', '"', ':', '2', '}']
    [(['a'], JsonValue.VInt 2), (['b'], JsonValue.VInt 1)] [] ['a'] (by rfl)

/-- Claim C2: every object a successful parse constructs has its member
sequence sorted ascending by the byte-wise key comparison, recursively
through the whole tree; array element order is the source order (witnessed
by the unsorted array `[3,1,2]` surviving a parse unchanged). -/
theorem claim_C2 :
    (∀ fuel rem o rem2, parseObject fuel rem = some (o, rem2) →
      objSorted (JsonValue.VObject o) = true) ∧
    (jsonRead ['{', '"', 'a', '"', ':', '[', '3', ',', '1', ',', '2', ']', '}'] =
      some [(['a'],
        JsonValue.VArray [JsonValue.VInt 3, JsonValue.VInt 1, JsonValue.VInt 2])]) := by
  constructor
  · intro fuel rem o rem2 h
    have hinv := (parseInv_all fuel).2.2.2.1 _ _ _ h
    apply parseInvB_objSorted
    rw [show parseInvB (JsonValue.VObject o) =
          (keysSortedB o && parseInvMembers o) from rfl]
    simp [hinv.1, hinv.2]
  · rfl

/-- Witness for C2: the members of `{"b":1,"a":2}` come out sorted. -/
theorem claim_C2_witness :
    objSorted (JsonValue.VObject
      [(['a'], JsonValue.VInt 2), (['b'], JsonValue.VInt 1)]) = true :=
  claim_C2.1 64 ['{', '"', 'b', '"', ':', '1', ',', '"', 'a', '"', ':', '2', '}']
    [(['a'], JsonValue.VInt 2), (['b'], JsonValue.VInt 1)] [] (by rfl)

/-- Claim C3: the listed numeric literals parse (in value position of a
document) with the stated Int/Float tags and the listed malformed literals
make the document parse fail; in general the recognizer tags Int exactly
when the consumed span contains no `.`/`e`/`E` and Float exactly when it
contains one. -/
theorem claim_C3 :
    (jsonRead ['{', '"', 'k', '"', ':', '0', '}'] =
      some [(['k'], JsonValue.VInt 0)]) ∧
    (jsonRead ['{', '"', 'k', '"', ':', '-', '0', '}'] =
      some [(['k'], JsonValue.VInt 0)]) ∧
    (jsonRead ['{', '"', 'k', '"', ':', '3', '}'] =
      some [(['k'], JsonValue.VInt 3)]) ∧
    (jsonRead ['{', '"', 'k', '"', ':', '3', '.', '1', '4', '}'] =
      some [(['k'], JsonValue.VFloat (mkRat 157 50))]) ∧
    (jsonRead ['{', '"', 'k', '"', ':', '3', 'e', '1', '0', '}'] =
      some [(['k'], JsonValue.VFloat (mkRat 30000000000 1))]) ∧
    (jsonRead ['{', '"', 'k', '"', ':', '3', 'E', '-', '1', '0', '}'] =
      some [(['k'], JsonValue.VFloat (mkRat 3 10000000000))]) ∧
    (jsonRead ['{', '"', 'k', '"', ':', '-', '3', '.', '0', 'e', '+', '5', '}'] =
      some [(['k'], JsonValue.VFloat (-(mkRat 300000 1)))]) ∧
    (jsonRead ['{', '"', 'k', '"', ':', '1', '0', '0', '}'] =
      some [(['k'], JsonValue.VInt 100)]) ∧
    (jsonRead ['{', '"', 'k', '"', ':', '1', 'e', '2', '}'] =
      some [(['k'], JsonValue.VFloat (mkRat 100 1))]) ∧
    (jsonRead ['{', '"', 'k', '"', ':', '0', '1', '}'] = none) ∧
    (jsonRead ['{', '"', 'k', '"', ':', '1', '.', '}'] = none) ∧
    (jsonRead ['{', '"', 'k', '"', ':', '.', '5', '}'] = none) ∧
    (jsonRead ['{', '"', 'k', '"', ':', '-', '}'] = none) ∧
    (jsonRead ['{', '"', 'k', '"', ':', '1', 'e', '}'] = none) ∧
    (∀ rem n ty, dfaNumber rem = some (n, ty) →
      ((ty = JsonType.JTYPE_INT ↔ ∀ c ∈ rem.take n, isDotExp c = false) ∧
       (ty = JsonType.JTYPE_FLOAT ↔ ∃ c ∈ rem.take n, isDotExp c = true))) := by
  refine ⟨rfl, rfl, rfl, rfl, rfl, rfl, rfl, rfl, rfl, rfl, rfl, rfl, rfl, rfl, ?_⟩
  intro rem n ty h
  have htag := dfaNumber_tag h
  have hty := dfaNumber_types h
  constructor
  · exact htag
  · constructor
    · intro hf
      by_contra hnone
      have hall : ∀ c ∈ rem.take n, isDotExp c = false := by
        intro c hc
        by_contra hbad
        exact hnone ⟨c, hc, by simpa using hbad⟩
      have := htag.mpr hall
      rw [this] at hf
      exact JsonType.noConfusion hf
    · intro hex
      rcases hty with hty | hty
      · exfalso
        rcases hex with ⟨c, hc, hbad⟩
        have := htag.mp hty c hc
        rw [this] at hbad
        exact Bool.noConfusion hbad
      · exact hty

/-- Witness for C3's general classification at the concrete run on `1e2,`. -/
theorem claim_C3_witness :
    ((JsonType.JTYPE_FLOAT = JsonType.JTYPE_INT ↔
      ∀ c ∈ (['1', 'e', '2', ','].take 3), isDotExp c = false) ∧
     (JsonType.JTYPE_FLOAT = JsonType.JTYPE_FLOAT ↔
      ∃ c ∈ (['1', 'e', '2', ','].take 3), isDotExp c = true)) :=
  claim_C3.2.2.2.2.2.2.2.2.2.2.2.2.2.2 ['1', 'e', '2', ','] 3
    JsonType.JTYPE_FLOAT (by rfl)

/-- Claim C4 (amended): the recognizer tracks only the state immediately
before the current character: on the first rejecting character it pushes
that character back and resolves from that state when it is accepting (Int
for states 2/3, Float for 5/8), failing otherwise, and it fails at end of
stream no matter which states were reached. -/
theorem claim_C4 : ∀ rem : List Char,
    dfaNumber rem =
      if dfaAliveLen 0 rem < rem.length then
        if acceptingStateInt (dfaStateAt 0 rem) then
          some (dfaAliveLen 0 rem, JsonType.JTYPE_INT)
        else if acceptingStateFloat (dfaStateAt 0 rem) then
          some (dfaAliveLen 0 rem, JsonType.JTYPE_FLOAT)
        else none
      else none := by
  intro rem
  exact dfaNumber_eq_resolve rem

/-- Counterexample to C4 as stated: on `1e+,` and on `12` at end of stream
the recognizer fails even though an accepting state was reached during the
run, so it does not resolve from the last accepting state ever reached and
it does not consume the maximal valid prefix. -/
theorem claim_C4_counterexample :
    (dfaNumber ['1', 'e', '+', ','] = none ∧
      (dfaStates ['1', 'e', '+', ',']).any
        (fun st => acceptingStateInt st || acceptingStateFloat st) = true) ∧
    (dfaNumber ['1', '2'] = none ∧
      (dfaStates ['1', '2']).any
        (fun st => acceptingStateInt st || acceptingStateFloat st) = true) := by
  exact ⟨⟨rfl, rfl⟩, ⟨rfl, rfl⟩⟩

/-- Claim C5 (code bug evidence): `true` parses to a `True`-tagged value,
but the code tags the values built from `false` and `null` `JTYPE_TRUE` as
well (`parse_value_false`/`parse_value_null` assign `JTYPE_TRUE`), and a
mismatching or truncated literal fails. -/
theorem claim_C5 :
    (parseValueTrue ['t', 'r', 'u', 'e', '}'] = some (JsonValue.VTrue, ['}'])) ∧
    (parseValueFalse ['f', 'a', 'l', 's', 'e', '}'] = some (JsonValue.VTrue, ['}'])) ∧
    (parseValueNull ['n', 'u', 'l', 'l', '}'] = some (JsonValue.VTrue, ['}'])) ∧
    (jsonRead ['{', '"', 'a', '"', ':', 'f', 'a', 'l', 's', 'e', '}'] =
      some [(['a'], JsonValue.VTrue)]) ∧
    (jsonRead ['{', '"', 'a', '"', ':', 'n', 'u', 'l', 'l', '}'] =
      some [(['a'], JsonValue.VTrue)]) ∧
    (jsonRead ['{', '"', 'a', '"', ':', 't', 'r', 'u', 'x', '}'] = none) ∧
    (jsonRead ['{', '"', 'a', '"', ':', 'f', 'a', 'l', 's'] = none) := by
  exact ⟨rfl, rfl, rfl, rfl, rfl, rfl, rfl⟩

/-- Claim C7: the read operation succeeds exactly when the root object
production parses and only whitespace remains; an input whose first
non-space character is not `{` fails; a top-level array or scalar fails;
trailing content fails; whitespace around the root object is accepted. -/
theorem claim_C7 : ∀ s : List Char,
    (((jsonRead s).isSome = true) ↔
      ∃ o rest, parseObject (jsonReadFuel s) s = some (o, rest) ∧
        rest.dropWhile isspaceB = []) ∧
    ((s.dropWhile isspaceB).head? ≠ some '{' → jsonRead s = none) ∧
    (jsonRead ['[', '1', ']'] = none) ∧
    (jsonRead ['1'] = none) ∧
    (jsonRead ['{', '}', ' ', 'x'] = none) ∧
    (jsonRead [' ', '{', '}', ' '] = some []) := by
  intro s
  refine ⟨?_, ?_, rfl, rfl, rfl, rfl⟩
  · rw [jsonRead]
    cases hp : parseObject (jsonReadFuel s) s with
    | none =>
      simp only
      constructor
      · intro h
        exact Bool.noConfusion h
      · intro ⟨o, rest, h1, _⟩
        exact Option.noConfusion h1
    | some p =>
      rcases p with ⟨o, rest⟩
      simp only [getNextNonspace_eq]
      cases hh : (rest.dropWhile isspaceB).head? with
      | none =>
        simp only
        constructor
        · intro _
          exact ⟨o, rest, rfl, List.head?_eq_none_iff.mp hh⟩
        · intro _
          rfl
      | some c =>
        simp only
        constructor
        · intro h
          exact Bool.noConfusion h
        · intro ⟨o2, rest2, h1, h2⟩
          injection h1 with h3
          injection h3 with h4 h5
          rw [← h5] at h2
          rw [h2] at hh
          exact Option.noConfusion hh
  · intro hne
    rw [jsonRead]
    cases hp : parseObject (jsonReadFuel s) s with
    | none => rfl
    | some p =>
      exact absurd (parseObject_head (by rw [hp] : parseObject (jsonReadFuel s) s =
        some (p.1, p.2))) hne

/-- Witness for C7: a top-level array is rejected via the
first-non-space-character clause. -/
theorem claim_C7_witness : jsonRead ['[', ']'] = none :=
  (claim_C7 ['[', ']']).2.1 (by decide)

/-- Claim C8 (amended): the scanner consumes the opening quote and, when
the enclosed span contains no newline before its final character, returns
exactly the span (no escape processing: a backslash is an ordinary
character, as the witness shows) with the stream past the closing quote;
if the stream ends before a closing quote it fails. -/
theorem claim_C8 :
    (∀ span rest : List Char, '"' ∉ span → '\n' ∉ span.dropLast →
      getNextString ('"' :: span ++ '"' :: rest) = some (span, rest)) ∧
    (∀ rem : List Char, '"' ∉ rem → getNextString ('"' :: rem) = none) := by
  constructor
  · intro span rest hq hn
    have h := @getNextString_spec [] span rest (by simp) hq hn
    simpa using h
  · intro rem hq
    rw [show getNextString ('"' :: rem) =
          (match getNextCharPos rem '"' with
           | none => none
           | some cnt =>
             some ((getStringInRange rem (cnt - 1)).1,
               ((getStringInRange rem (cnt - 1)).2).drop 1)) from rfl]
    rw [getNextCharPos_eq_none hq]

/-- Witness for C8 at a span holding a backslash: the backslash is
returned verbatim. -/
theorem claim_C8_witness :
    getNextString ['"', 'a', '\\', 'b', '"'] = some (['a', '\\', 'b'], []) :=
  claim_C8.1 ['a', '\\', 'b'] [] (by decide) (by decide)

/-- Counterexample to C8 as stated: on the quoted span `a\nb` the scanner
does not return the full span with the stream past the closing quote — the
`fgets` extraction truncates at the newline and leaves the stream at the
closing quote. -/
theorem claim_C8_counterexample :
    getNextString ['"', 'a', '\n', 'b', '"'] ≠ some (['a', '\n', 'b'], []) ∧
    getNextString ['"', 'a', '\n', 'b', '"'] = some (['a', '\n'], ['"']) := by
  constructor
  · intro h
    rw [show getNextString ['"', 'a', '\n', 'b', '"'] =
          some (['a', '\n'], ['"']) from rfl] at h
    injection h with h2
    injection h2 with h3 h4
    have : (['a', '\n'] : List Char).length = (['a', '\n', 'b'] : List Char).length := by
      rw [h3]
    simp at this
  · rfl

/-- Claim C9: `{}` and `[]` parse as zero-element containers, at the root,
nested, and with interior whitespace. -/
theorem claim_C9 :
    (jsonRead ['{', '}'] = some []) ∧
    (jsonRead ['{', ' ', '}'] = some []) ∧
    (jsonRead ['{', '"', 'a', '"', ':', '[', ']', '}'] =
      some [(['a'], JsonValue.VArray [])]) ∧
    (jsonRead ['{', '"', 'a', '"', ':', '[', ' ', ']', '}'] =
      some [(['a'], JsonValue.VArray [])]) ∧
    (jsonRead ['{', '"', 'a', '"', ':', '{', '}', '}'] =
      some [(['a'], JsonValue.VObject [])]) ∧
    (parseValue 32 ['[', ']'] = some (JsonValue.VArray [], [])) ∧
    (parseObject 32 ['{', '}'] = some ([], [])) := by
  exact ⟨rfl, rfl, rfl, rfl, rfl, rfl, rfl⟩

/-- Claim C10: a container built by the empty-container constructor or by
pushes holds exactly the pushed elements followed by the `NULL` sentinel,
with no interior `NULL`, so sentinel-scan length discovery and iteration
recover exactly the pushed sequence. -/
theorem claim_C10 {α : Type} : ∀ (x : α) (rest : List α),
    (buildBuf (x :: rest) =
      (some ((x :: rest).map some ++ [none]), (x :: rest).length)) ∧
    ((emptyContainerBuf : List (Option α)) = ([] : List α).map some ++ [none]) ∧
    (((x :: rest).map some ++ [none]).dropLast.all Option.isSome = true) ∧
    (sentinelLen ((x :: rest).map some ++ [none]) = (x :: rest).length) ∧
    (sentinelElems ((x :: rest).map some ++ [none]) = x :: rest) ∧
    (sentinelLen (emptyContainerBuf : List (Option α)) = 0) ∧
    (sentinelElems (emptyContainerBuf : List (Option α)) = []) := by
  intro x rest
  refine ⟨buildBuf_spec x rest, rfl, ?_, sentinelLen_spec _, sentinelElems_spec _,
    rfl, rfl⟩
  rw [List.dropLast_concat]
  rw [List.all_eq_true]
  intro y hy
  rcases List.mem_map.mp hy with ⟨z, _, hz⟩
  rw [← hz]
  rfl

/-- Claim C6 (amended): for every document whose successful parse yields a
tree with no `Float` leaf, re-parsing the canonical serialization yields a
structurally equal tree.  (`Float` leaves are excluded: `%f` prints six fixed
decimals, which does not preserve the value in general.) -/
theorem claim_C6 (D : List Char) (t : JsonObjectT)
    (hparse : jsonRead D = some t) (hnf : noFloatMembers t = true) :
    jsonRead (jsonPrintObject t) = some t := by
  have hinv2 : keysSortedB t = true ∧ parseInvMembers t = true := by
    rw [jsonRead] at hparse
    split at hparse
    next => exact Option.noConfusion hparse
    next o rem heq =>
      split at hparse
      next => exact Option.noConfusion hparse
      next =>
        have h2 := Option.some.inj hparse
        subst h2
        exact (parseInv_all (jsonReadFuel D)).2.2.2.1 _ _ _ heq
  rw [show jsonPrintObject t = jsonObjectPrint t 0 ++ ['\n'] from rfl]
  have hro := ((printParse_all
      (jsonReadFuel (jsonObjectPrint t 0 ++ ['\n']))).2.2.2.1) t 0 ['\n']
    hinv2.1 hinv2.2 hnf
    (by
      rw [jsonReadFuel]
      omega)
  rw [jsonRead, hro]
  rfl

/-- A concrete instance of the amended round trip: `{"a":1}` parses to a
single integer member, which survives print-then-reparse unchanged. -/
theorem claim_C6_witness :
    jsonRead ['{', '"', 'a', '"', ':', '1', '}'] = some [(['a'], JsonValue.VInt 1)] ∧
    noFloatMembers [(['a'], JsonValue.VInt 1)] = true ∧
    jsonRead (jsonPrintObject [(['a'], JsonValue.VInt 1)]) =
      some [(['a'], JsonValue.VInt 1)] :=
  ⟨rfl, rfl, claim_C6 ['{', '"', 'a', '"', ':', '1', '}']
    [(['a'], JsonValue.VInt 1)] rfl rfl⟩

/-- Counterexample to C6 as stated: the document `{"k":3e-10}` parses, but
re-parsing its canonical serialization (`%f` prints the float with six
decimals as `0.000000`) yields a structurally different tree. -/
theorem claim_C6_counterexample :
    (jsonRead ['{', '"', 'k', '"', ':', '3', 'e', '-', '1', '0', '}'] =
      some [(['k'], JsonValue.VFloat (mkRat 3 10000000000))]) ∧
    (jsonRead (jsonPrintObject [(['k'], JsonValue.VFloat (mkRat 3 10000000000))]) =
      some [(['k'], JsonValue.VFloat 0)]) ∧
    JsonValue.VFloat (0 : ℚ) ≠ JsonValue.VFloat (mkRat 3 10000000000) := by
  refine ⟨rfl, rfl, ?_⟩
  intro h
  injection h with h2
  exact absurd h2 (by decide)

end Json
